import Mathlib

/-!
Shallow embedding of `upsilonconf` (src/upsilonconf/config.py, io.py, cli/cli.py).

A Python `Configuration` stores an insertion-ordered string-keyed mapping
(`self._content`, a `dict`).  We model the content as an association list
`List (String × Value)`; Python `dict` semantics are preserved:
assignment to a fresh key appends, assignment to an existing key replaces the
value in place, deletion removes the unique entry.

Values are scalars (None, int, str), plain mappings (`dict`) or nested
`Configuration`s (`conf`).  Python's in-place mutation is modelled by state
passing: a mutating operation returns the new content together with
`Option Err` / `Except Err` for the exception that propagates (partial
mutations that Python leaves behind when an exception is raised mid-operation
are reflected in the returned content).  Python string predicates
(`str.isalpha`, `str.isidentifier`) are modelled on their ASCII fragment.
-/

namespace Upsilonconf

/-- A Python value as far as the configuration core is concerned:
`null`/`int`/`str` are scalars, `dict` is a plain mapping (not yet wrapped),
`conf` is a `Configuration` with its `_content` list. -/
inductive Value where
  | null : Value
  | int : Int → Value
  | str : String → Value
  | dict : List (String × Value) → Value
  | conf : List (String × Value) → Value

/-- The `_content` of a `Configuration` (or the entries of a plain dict). -/
abbrev Content := List (String × Value)

/-- The Python exceptions the core can raise:
`key` = `KeyError` (Missing-Key), `dup` = the `ValueError` for rebinding
(Duplicate-Key), `invalid` = `InvalidKeyError` (Invalid-Key),
`typeErr` = `TypeError`, `val` = other `ValueError` (tuple unpacking),
`attr` = `AttributeError`. -/
inductive Err where
  | key : String → Err
  | dup : String → Err
  | invalid : String → Err
  | typeErr : Err
  | val : String → Err
  | attr : String → Err
deriving DecidableEq, Repr

/-- `dict.__getitem__` / `in`: first (only) binding of a key. -/
def lookup : Content → String → Option Value
  | [], _ => none
  | (k, v) :: t, q => if k = q then some v else lookup t q

/-- Python dict assignment `d[k] = v`: replace in place if the key is bound
(keeping its position), otherwise append. -/
def setVal : Content → String → Value → Content
  | [], k, v => [(k, v)]
  | (k0, v0) :: t, k, v => if k0 = k then (k0, v) :: t else (k0, v0) :: setVal t k v

/-- Python dict deletion `del d[k]` (keys are unique in a dict). -/
def eraseKey : Content → String → Content
  | [], _ => []
  | (k0, v0) :: t, k => if k0 = k then t else (k0, v0) :: eraseKey t k

/-- Is the value a `Configuration`?  (`isinstance(v, Configuration)`.) -/
def isConf : Value → Bool
  | .conf _ => true
  | _ => false

/-- Is the value mapping-shaped (acceptable to `Configuration(**v)`)? -/
def isMapping : Value → Bool
  | .dict _ => true
  | .conf _ => true
  | _ => false

/-! ### Key splitting: `keys.split(".")` -/

/-- Accumulator worker for `str.split(".")`. -/
def splitDotAux : List Char → List Char → List (List Char)
  | [], cur => [cur.reverse]
  | c :: rest, cur =>
    if c = '.' then cur.reverse :: splitDotAux rest []
    else splitDotAux rest (c :: cur)

/-- Python `s.split(".")`: always at least one part; `"".split(".") = [""]`. -/
def splitDot (s : String) : List String :=
  (splitDotAux s.data []).map (fun l => String.mk l)

/-- A key as accepted by `__getitem__`/`__setitem__`/`overwrite`: either a
(possibly dotted) string, split on `"."`, or an iterable of segments. -/
inductive PKey where
  | str : String → PKey
  | segs : List String → PKey

/-- The segment list `_resolve_key` works through
(`*parents, final = keys.split(".")` resp. `*parents, final = keys`). -/
def PKey.toSegs : PKey → List String
  | .str s => splitDot s
  | .segs l => l

/-! ### Key validation: `Configuration._validate_key` -/

/-- The non-dunder names of `super().__dir__()` that do not start with an
underscore: methods of `Mapping`/`MutableMapping` and of `Configuration`
itself.  (All other reserved attributes start with `_` and are already
rejected by the leading-letter rule.) -/
def reservedNames : List String :=
  ["clear", "get", "items", "keys", "load", "overwrite", "overwrite_all",
   "pop", "popitem", "save", "setdefault", "update", "values"]

/-- An identifier character (ASCII fragment of Python identifiers). -/
def isIdentChar (c : Char) : Bool := c.isAlphanum || c = '_'

/-- ASCII fragment of `str.isidentifier`. -/
def isIdentifier (s : String) : Bool :=
  match s.data with
  | [] => false
  | c :: rest => (c.isAlpha || c = '_') && rest.all isIdentChar

/-- `Configuration._validate_key`, with the source's check order.  The error
messages drop the quotes around the key but keep the source wording. -/
def validateKey (k : String) : Except Err Unit :=
  match k.data with
  | [] => .error (.invalid (k ++ " does not start with a letter"))
  | c :: _ =>
    if !c.isAlpha then .error (.invalid (k ++ " does not start with a letter"))
    else if !isIdentifier k then
      .error (.invalid (k ++ " contains symbols that are not allowed"))
    else if k ∈ reservedNames then
      .error (.invalid (k ++ " is not allowed as key, it is special"))
    else .ok ()

/-- Boolean version of "`_validate_key` succeeds". -/
def validKeyB (k : String) : Bool :=
  match k.data with
  | [] => false
  | c :: _ => c.isAlpha && isIdentifier k && !(decide (k ∈ reservedNames))

/-! ### Read-mode key resolution (`_resolve_key` with `create=False`) -/

/-- Walk all but the last segment; absent parents and non-`Configuration`
parents raise `KeyError`.  Returns the owning content and the final key. -/
def resolveRead : Content → List String → Except Err (Content × String)
  | _, [] => .error (.val "not enough values to unpack")
  | c, [fin] => .ok (c, fin)
  | c, k :: k2 :: rest =>
    match lookup c k with
    | some (.conf sub) => resolveRead sub (k2 :: rest)
    | some _ => .error (.key k)
    | none => .error (.key k)

/-- `Configuration.__getitem__` on a resolved segment list: resolve, then
look the final key up in the owner's content. -/
def getSegs (c : Content) (segs : List String) : Except Err Value :=
  match resolveRead c segs with
  | .error e => .error e
  | .ok (own, fin) =>
    match lookup own fin with
    | some v => .ok v
    | none => .error (.key fin)

/-- `Configuration.__delitem__` on a segment list.  The source deletes
through the alias returned by `_resolve_key`; functionally we rebuild the
spine, which leaves the same tree. -/
def delSegs : Content → List String → Except Err Content
  | _, [] => .error (.val "not enough values to unpack")
  | c, [fin] =>
    match lookup c fin with
    | some _ => .ok (eraseKey c fin)
    | none => .error (.key fin)
  | c, k :: k2 :: rest =>
    match lookup c k with
    | some (.conf sub) =>
      match delSegs sub (k2 :: rest) with
      | .error e => .error e
      | .ok sub2 => .ok (setVal c k (.conf sub2))
    | some _ => .error (.key k)
    | none => .error (.key k)

/-- `MutableMapping.pop(key, None)`: `self[key]` then `del self[key]`;
a `KeyError` from the lookup returns the `None` default, other exceptions
propagate. -/
def popDefault (c : Content) (segs : List String) :
    Except Err (Content × Option Value) :=
  match getSegs c segs with
  | .error (.key _) => .ok (c, none)
  | .error e => .error e
  | .ok v =>
    match delSegs c segs with
    | .error e => .error e
    | .ok c2 => .ok (c2, some v)

/-! ### Write-mode resolution and insertion

`Configuration.__setitem__` resolves with `create=True` (inserting an empty
`Configuration` at absent parent segments via `root[k] = {}`, which validates
`k`), then validates the final key, raises the Duplicate-Key `ValueError`
if it is bound, wraps mapping-shaped values with `Configuration(**value)`
(a `TypeError` from non-mappings is swallowed), and binds.  Here the resolve
walk and the final assignment are fused into one recursion over the segment
list; the resulting tree, including partial mutations left behind when the
final steps raise, is the same. -/

mutual

/-- `__setitem__` on a segment list: returns the new tree and the raised
exception, if any. -/
def setSegs : Content → List String → Value → Content × Option Err
  | c, [], _ => (c, some (.val "not enough values to unpack"))
  | c, [fin], v =>
    match validateKey fin with
    | .error e => (c, some e)
    | .ok _ =>
      if (lookup c fin).isSome then
        (c, some (.dup ("key " ++ fin ++ " already defined, use overwrite methods instead")))
      else
        match wrapValue v with
        | .error e => (c, some e)
        | .ok v2 => (setVal c fin v2, none)
  | c, k :: k2 :: rest, v =>
    match lookup c k with
    | some (.conf sub) =>
      let r := setSegs sub (k2 :: rest) v
      (setVal c k (.conf r.1), r.2)
    | some _ => (c, some (.key k))
    | none =>
      match validateKey k with
      | .error e => (c, some e)
      | .ok _ =>
        let r := setSegs [] (k2 :: rest) v
        (setVal c k (.conf r.1), r.2)
termination_by _c segs v => (sizeOf v, 1, segs.length)

/-- `try: value = Configuration(**value) except TypeError: pass`: mappings
are recursively rebuilt as a `Configuration`; anything else is kept as is
(the `TypeError` is swallowed).  Errors raised while rebuilding a mapping
(`InvalidKeyError`, ...) are `ValueError`s and propagate. -/
def wrapValue : Value → Except Err Value
  | .dict m =>
    match initFold [] m with
    | .error e => .error e
    | .ok m2 => .ok (.conf m2)
  | .conf m =>
    match initFold [] m with
    | .error e => .error e
    | .ok m2 => .ok (.conf m2)
  | v => .ok v
termination_by v => (sizeOf v, 0, 0)

/-- `Configuration.__init__`: start from the accumulated content and
`__setitem__` each keyword argument in order (dotted names are split). -/
def initFold : Content → List (String × Value) → Except Err Content
  | acc, [] => .ok acc
  | acc, (k, v) :: rest =>
    let r := setSegs acc (splitDot k) v
    match r.2 with
    | some e => .error e
    | none => initFold r.1 rest
termination_by _acc entries => (sizeOf entries, 2, 0)

end

/-- `Configuration(**kwargs)`. -/
def initConf (kwargs : List (String × Value)) : Except Err Content :=
  initFold [] kwargs

/-- `Configuration.__setitem__` with a `PKey`. -/
def setItem (c : Content) (k : PKey) (v : Value) : Content × Option Err :=
  setSegs c k.toSegs v

/-- `Configuration.__getitem__` with a `PKey`. -/
def getItem (c : Content) (k : PKey) : Except Err Value :=
  getSegs c k.toSegs

/-! ### `Configuration.overwrite` / `overwrite_all`

```
old_value = self.pop(key, None)
try:
    sub_conf = Configuration(**old_value)
    old_value = sub_conf.overwrite_all(value)
    value = sub_conf
except TypeError:
    pass
self.__setitem__(key, value)
return old_value
```
`Configuration(**old_value)` raises `TypeError` when `old_value` is `None` or
a scalar (then the whole `try` body is skipped and the raw `value` is bound).
When `old_value` is a mapping, `sub_conf.overwrite_all(value)` iterates
`value.keys()`; a non-mapping `value` without `keys` falls into the
pair-iteration branch: iterating an `int`/`None` raises `TypeError` (caught:
the old value is replaced wholesale), iterating a non-empty `str` raises
`ValueError: not enough values to unpack` (NOT caught — it propagates), and
an empty `str` iterates zero pairs, so `overwrite_all` returns `{}` and the
key is re-bound to the rebuilt sub-configuration. -/

/-- The tail of `overwrite` after the `try`: `self.__setitem__(key, value)`
then `return old_value`. -/
def finishSet (c : Content) (segs : List String) (v : Value) (old : Value) :
    Content × Except Err Value :=
  let r := setSegs c segs v
  match r.2 with
  | some e => (r.1, .error e)
  | none => (r.1, .ok old)

mutual

/-- `Configuration.overwrite(key, value)`; returns the new tree and the old
value (or the raised exception). -/
def overwrite (c : Content) (k : PKey) (v : Value) : Content × Except Err Value :=
  match popDefault c k.toSegs with
  | .error e => (c, .error e)
  | .ok (c1, old) =>
    match old with
    | none => finishSet c1 k.toSegs v .null
    | some (.conf m) => overwriteMerge c1 k.toSegs (.conf m) m v
    | some (.dict m) => overwriteMerge c1 k.toSegs (.dict m) m v
    | some w => finishSet c1 k.toSegs v w
termination_by (sizeOf v, 2, 0)

/-- The `try` body of `overwrite` when the popped old value was a mapping
with entries `m` (`wOld` is the popped value itself, returned unchanged when
`overwrite_all` raises the caught `TypeError`). -/
def overwriteMerge (c1 : Content) (segs : List String) (wOld : Value)
    (m : List (String × Value)) (v : Value) : Content × Except Err Value :=
  match initFold [] m with
  | .error e => (c1, .error e)
  | .ok sub0 =>
    match v with
    | .dict m2 =>
      let r := overwriteAllFold sub0 [] m2
      match r.2 with
      | .error e => (c1, .error e)
      | .ok olds => finishSet c1 segs (.conf r.1) (.dict olds)
    | .conf m2 =>
      let r := overwriteAllFold sub0 [] m2
      match r.2 with
      | .error e => (c1, .error e)
      | .ok olds => finishSet c1 segs (.conf r.1) (.dict olds)
    | .str s =>
      if s = "" then finishSet c1 segs (.conf sub0) (.dict [])
      else (c1, .error (.val "not enough values to unpack"))
    | _ => finishSet c1 segs v wOld
termination_by (sizeOf v, 1, 0)

/-- `Configuration.overwrite_all(other)` over the entries of a mapping:
`for k in other.keys(): old_values[k] = self.overwrite(k, other[k])`. -/
def overwriteAllFold (sub : Content) (olds : Content) :
    List (String × Value) → Content × Except Err Content
  | [] => (sub, .ok olds)
  | (k, v) :: rest =>
    let r := overwrite sub (.str k) v
    match r.2 with
    | .error e => (r.1, .error e)
    | .ok w => overwriteAllFold r.1 (setVal olds k w) rest
termination_by entries => (sizeOf entries, 0, 0)

end

/-! ### Merge operators (`__or__`, `__ror__`, `__ior__`)

`__or__` builds `Configuration(**self)` and then calls `MutableMapping.update`
with `other`, which performs the strict `self[key] = other[key]` for every
key of `other` (no overwrite).  `__ror__` swaps the roles.  `__ior__` calls
`self.update(**other)`, which runs the same strict assignments in place. -/

/-- `MutableMapping.update` with a mapping argument: strict `__setitem__`
for each entry in order; the first failure propagates (entries already
assigned stay assigned). -/
def updateStrict : Content → List (String × Value) → Content × Option Err
  | c, [] => (c, none)
  | c, (k, v) :: rest =>
    let r := setSegs c (splitDot k) v
    match r.2 with
    | some e => (r.1, some e)
    | none => updateStrict r.1 rest

/-- `Configuration.__or__`: `result = Configuration(**self); result.update(other)`. -/
def orOp (self other : Content) : Except Err Content :=
  match initFold [] self with
  | .error e => .error e
  | .ok r =>
    match updateStrict r other with
    | (_, some e) => .error e
    | (c2, none) => .ok c2

/-- `Configuration.__ror__`: `result = Configuration(**other); result.update(self)`. -/
def rorOp (self other : Content) : Except Err Content :=
  match initFold [] other with
  | .error e => .error e
  | .ok r =>
    match updateStrict r self with
    | (_, some e) => .error e
    | (c2, none) => .ok c2

/-- `Configuration.__ior__`: `self.update(**other)` mutates `self` in place. -/
def iorOp (self other : Content) : Content × Option Err :=
  updateStrict self other

/-! ### Well-formedness

Every content reachable through the public API has valid identifier keys,
unique keys, and stored values that are never plain dicts (they were wrapped
into `Configuration`s at assignment time). -/

mutual

/-- A stored value is well-formed. -/
def wfValue : Value → Bool
  | .null => true
  | .int _ => true
  | .str _ => true
  | .dict _ => false
  | .conf m => wfContent m

/-- A `_content` list is well-formed: valid unique keys, well-formed values. -/
def wfContent : List (String × Value) → Bool
  | [] => true
  | (k, v) :: t => validKeyB k && (lookup t k).isNone && wfValue v && wfContent t

end

/-- The nested tree built by write-mode resolution along a fresh path:
`buildPath [k1, ..., kn, fin] v` is `{k1: {... {kn: {fin: v}}}}`. -/
def buildPath : List String → Value → Content
  | [], _ => []
  | [fin], v => [(fin, v)]
  | k :: k2 :: rest, v => [(k, .conf (buildPath (k2 :: rest) v))]

/-! ### Key modifiers (`__replace_in_keys` / `_replace_in_keys`)

`load`/`save` apply `_replace_in_keys(config, key_modifiers)`, which runs one
full-tree pass `__replace_in_keys(config, s, key_modifiers[s])` per modifier,
longest source `s` first (`sorted(key_modifiers.keys(), key=len,
reverse=True)`, a stable descending sort).  One pass rebuilds every mapping
level as a plain dict, replacing `s` by `r` in each key
(`dictionary[key.replace(s, r)] = value`); non-mapping values are kept. -/

/-- Python `str.replace(s, r)` on character lists: leftmost non-overlapping
occurrences; an empty `s` puts `r` before every character and at the end. -/
def pyReplaceL (cs s r : List Char) : List Char :=
  if hs : s = [] then
    match cs with
    | [] => r
    | c :: rest => r ++ c :: pyReplaceL rest s r
  else
    match cs with
    | [] => []
    | c :: rest =>
      if s.isPrefixOf (c :: rest) then r ++ pyReplaceL ((c :: rest).drop s.length) s r
      else c :: pyReplaceL rest s r
termination_by cs.length
decreasing_by
  · simp
  · simp only [List.length_drop, List.length_cons]
    have : 0 < s.length := List.length_pos.mpr hs
    omega
  · simp

/-- Python `key.replace(s, r)`. -/
def pyReplace (t s r : String) : String :=
  String.mk (pyReplaceL t.data s.data r.data)

/-- Stable insertion into a list sorted by non-increasing source length. -/
def insertDesc (x : String × String) : List (String × String) → List (String × String)
  | [] => [x]
  | y :: t => if y.1.length ≤ x.1.length then x :: y :: t else y :: insertDesc x t

/-- `sorted(key_modifiers.keys(), key=len, reverse=True)` (stable descending
sort of the modifier entries by source length). -/
def sortMods (mods : List (String × String)) : List (String × String) :=
  mods.foldr insertDesc []

/-- Build a Python dict from a sequence of assignments
(`dictionary[k] = v` in order). -/
def dictOf (l : List (String × Value)) : Content :=
  l.foldl (fun acc kv => setVal acc kv.1 kv.2) []

mutual

/-- One `__replace_in_keys(value, s, r)` recursion step on a value: mappings
(dict or `Configuration`) are rebuilt as plain dicts, others kept
(the `AttributeError` of `.items()` is swallowed). -/
def replPassVal (s r : String) : Value → Value
  | .null => .null
  | .int n => .int n
  | .str t => .str t
  | .dict m => .dict (dictOf (replPassEntries s r m))
  | .conf m => .dict (dictOf (replPassEntries s r m))
termination_by v => sizeOf v

/-- The rewritten entries of one mapping level, in iteration order. -/
def replPassEntries (s r : String) : List (String × Value) → List (String × Value)
  | [] => []
  | (k, v) :: t => (pyReplace k s r, replPassVal s r v) :: replPassEntries s r t
termination_by l => sizeOf l

end

/-- `__replace_in_keys(mapping, s, r)` on a top-level mapping. -/
def replPassList (s r : String) (m : Content) : Content :=
  dictOf (replPassEntries s r m)

/-- `_replace_in_keys(config, key_modifiers)`: one pass per modifier,
longest source first. -/
def replaceInKeys (config : Content) (mods : List (String × String)) : Content :=
  (sortMods mods).foldl (fun cfg sr => replPassList sr.1 sr.2 cfg) config

/-- The per-key effect of all modifiers, longest source first: what the spec
describes as "each literal substring replacement applied to every key". -/
def keyX (mods : List (String × String)) (k : String) : String :=
  (sortMods mods).foldl (fun k2 sr => pyReplace k2 sr.1 sr.2) k

mutual

/-- Specification-side tree map: apply `f` to every key at every nesting
level (mapping levels become plain dicts, like `__replace_in_keys`). -/
def mapTreeVal (f : String → String) : Value → Value
  | .null => .null
  | .int n => .int n
  | .str t => .str t
  | .dict m => .dict (mapTreeList f m)
  | .conf m => .dict (mapTreeList f m)
termination_by v => sizeOf v

/-- `mapTreeVal` over the entries of one mapping level. -/
def mapTreeList (f : String → String) : List (String × Value) → Content
  | [] => []
  | (k, v) :: t => (f k, mapTreeVal f v) :: mapTreeList f t
termination_by l => sizeOf l

end

/-- Keys of one mapping level are pairwise distinct. -/
def keysNodup : List (String × Value) → Bool
  | [] => true
  | (k, _) :: t => (lookup t k).isNone && keysNodup t

/-- Rename the keys of one level by `f`. -/
def mapKeys (f : String → String) (m : List (String × Value)) :
    List (String × Value) :=
  m.map (fun kv => (f kv.1, kv.2))

mutual

/-- A plain (dict-only) tree whose keys stay pairwise distinct at every
nesting level after renaming by `f` (so no two keys collapse onto the same
replaced key). -/
def goodVal (f : String → String) : Value → Bool
  | .null => true
  | .int _ => true
  | .str _ => true
  | .dict m => keysNodup (mapKeys f m) && goodList f m
  | .conf _ => false
termination_by v => sizeOf v

/-- `goodVal` over the values of one mapping level. -/
def goodList (f : String → String) : List (String × Value) → Bool
  | [] => true
  | (_, v) :: t => goodVal f v && goodList f t
termination_by l => sizeOf l

end

/-- A whole top level is good under `f` when its key images are distinct and
every value is good. -/
def goodTop (f : String → String) (m : Content) : Bool :=
  keysNodup (mapKeys f m) && goodList f m

/-! ### CLI suffix dispatch (`CLI.from_cli`, src/upsilonconf/cli/cli.py)

```
try:
    loader = self._loaders[ns.config.suffix]
except KeyError:
    # Print error and exit
    argparse.error(...)
```
The comment and docstring promise a usage error ("An usage message is
printed, if the suffix cannot be found"), but `argparse.error` does not
exist: the `argparse` module has no attribute `error` (only
`ArgumentParser.error` has).  Attribute lookup on the module therefore
raises `AttributeError`, which propagates to the caller instead of any
usage exit. -/

/-- Outcome of the suffix-dispatch step of `CLI.from_cli`. -/
inductive CliOutcome where
  | ok : CliOutcome
  | usageExit : String → CliOutcome
  | raises : Err → CliOutcome
deriving DecidableEq, Repr

/-- The suffix-dispatch step of `CLI.from_cli`: look the suffix up in the
registered loaders; on a `KeyError` the handler evaluates `argparse.error`,
and the `argparse` module has no attribute `error`, so an `AttributeError`
is raised (no usage message, no exit). -/
def fromCliSuffix (loaders : List String) (suffix : String) : CliOutcome :=
  if loaders.contains suffix then .ok
  else .raises (.attr "module argparse has no attribute error")

/-! ### Basic lemmas about the dict model -/

theorem lookup_append (xs ys : Content) (k : String) :
    lookup (xs ++ ys) k =
      match lookup xs k with
      | some v => some v
      | none => lookup ys k := by
  induction xs with
  | nil => simp [lookup]
  | cons h t ih =>
    obtain ⟨k0, v0⟩ := h
    by_cases hk : k0 = k <;> simp [lookup, hk, ih]

theorem lookup_append_right (xs ys : Content) (k : String)
    (h : lookup xs k = none) : lookup (xs ++ ys) k = lookup ys k := by
  rw [lookup_append, h]

theorem lookup_cons_none {k0 : String} {v0 : Value} {t : Content} {k : String}
    (h : lookup ((k0, v0) :: t) k = none) : k0 ≠ k ∧ lookup t k = none := by
  by_cases hk : k0 = k <;> simp [lookup, hk] at h <;> simp [hk, h]

theorem setVal_absent (c : Content) (k : String) (v : Value)
    (h : lookup c k = none) : setVal c k v = c ++ [(k, v)] := by
  induction c with
  | nil => simp [setVal]
  | cons hd t ih =>
    obtain ⟨k0, v0⟩ := hd
    obtain ⟨hne, ht⟩ := lookup_cons_none h
    simp [setVal, hne, ih ht]

theorem lookup_setVal_self (c : Content) (k : String) (v : Value) :
    lookup (setVal c k v) k = some v := by
  induction c with
  | nil => simp [setVal, lookup]
  | cons hd t ih =>
    obtain ⟨k0, v0⟩ := hd
    by_cases hk : k0 = k <;> simp [setVal, lookup, hk, ih]

theorem lookup_setVal_ne (c : Content) (k j : String) (v : Value)
    (h : j ≠ k) : lookup (setVal c k v) j = lookup c j := by
  have h2 : ¬ k = j := fun hh => h hh.symm
  induction c with
  | nil => simp [setVal, lookup, h2]
  | cons hd t ih =>
    obtain ⟨k0, v0⟩ := hd
    by_cases hk : k0 = k
    · subst hk
      simp [setVal, lookup, h2]
    · simp [setVal, lookup, hk, ih]

theorem setVal_self_id (c : Content) (k : String) (v : Value)
    (h : lookup c k = some v) : setVal c k v = c := by
  induction c with
  | nil => simp [lookup] at h
  | cons hd t ih =>
    obtain ⟨k0, v0⟩ := hd
    by_cases hk : k0 = k
    · subst hk
      simp [lookup] at h
      simp [setVal, h]
    · simp [lookup, hk] at h
      simp [setVal, hk, ih h]

theorem lookup_eraseKey_ne (c : Content) (k j : String) (h : j ≠ k) :
    lookup (eraseKey c k) j = lookup c j := by
  have h2 : ¬ k = j := fun hh => h hh.symm
  induction c with
  | nil => simp [eraseKey]
  | cons hd t ih =>
    obtain ⟨k0, v0⟩ := hd
    by_cases hk : k0 = k
    · subst hk
      simp [eraseKey, lookup, h2]
    · simp [eraseKey, lookup, hk, ih]

theorem lookup_eraseKey_mono (c : Content) (k j : String)
    (h : lookup c j = none) : lookup (eraseKey c k) j = none := by
  induction c with
  | nil => simp [eraseKey, lookup]
  | cons hd t ih =>
    obtain ⟨k0, v0⟩ := hd
    obtain ⟨hne, ht⟩ := lookup_cons_none h
    by_cases hk : k0 = k <;> simp [eraseKey, lookup, hk, hne, ih ht, ht]

/-! ### Lemmas about well-formedness -/

theorem wf_lookup {c : Content} {k : String} {v : Value}
    (hwf : wfContent c = true) (h : lookup c k = some v) :
    validKeyB k = true ∧ wfValue v = true := by
  induction c with
  | nil => simp [lookup] at h
  | cons hd t ih =>
    obtain ⟨k0, v0⟩ := hd
    rw [wfContent] at hwf
    simp only [Bool.and_eq_true] at hwf
    by_cases hk : k0 = k
    · subst hk
      simp [lookup] at h
      subst h
      exact ⟨hwf.1.1.1, hwf.1.2⟩
    · simp [lookup, hk] at h
      exact ih hwf.2 h

theorem wf_tail {hd : String × Value} {t : Content}
    (hwf : wfContent (hd :: t) = true) : wfContent t = true := by
  obtain ⟨k0, v0⟩ := hd
  rw [wfContent] at hwf
  simp only [Bool.and_eq_true] at hwf
  exact hwf.2

theorem wf_lookup_erase_self {c : Content} (k : String)
    (hwf : wfContent c = true) : lookup (eraseKey c k) k = none := by
  induction c with
  | nil => simp [eraseKey, lookup]
  | cons hd t ih =>
    obtain ⟨k0, v0⟩ := hd
    rw [wfContent] at hwf
    simp only [Bool.and_eq_true] at hwf
    by_cases hk : k0 = k
    · subst hk
      simpa [eraseKey] using hwf.1.1.2
    · simp [eraseKey, lookup, hk, ih hwf.2]

theorem wf_erase {c : Content} (k : String) (hwf : wfContent c = true) :
    wfContent (eraseKey c k) = true := by
  induction c with
  | nil => simp [eraseKey, wfContent]
  | cons hd t ih =>
    obtain ⟨k0, v0⟩ := hd
    rw [wfContent] at hwf
    simp only [Bool.and_eq_true] at hwf
    by_cases hk : k0 = k
    · simpa [eraseKey, hk] using hwf.2
    · rw [eraseKey]
      simp only [hk, if_false]
      rw [wfContent]
      simp only [Bool.and_eq_true]
      refine ⟨⟨⟨hwf.1.1.1, ?_⟩, hwf.1.2⟩, ih hwf.2⟩
      have := hwf.1.1.2
      simp only [Option.isNone_iff_eq_none] at this ⊢
      exact lookup_eraseKey_mono t k k0 this

theorem wf_append_single {c : Content} {k : String} {v : Value}
    (hwf : wfContent c = true) (hfresh : lookup c k = none)
    (hk : validKeyB k = true) (hv : wfValue v = true) :
    wfContent (c ++ [(k, v)]) = true := by
  induction c with
  | nil => simp [wfContent, lookup, hk, hv]
  | cons hd t ih =>
    obtain ⟨k0, v0⟩ := hd
    rw [wfContent] at hwf
    simp only [Bool.and_eq_true] at hwf
    obtain ⟨hne, ht⟩ := lookup_cons_none hfresh
    rw [List.cons_append, wfContent]
    simp only [Bool.and_eq_true]
    refine ⟨⟨⟨hwf.1.1.1, ?_⟩, hwf.1.2⟩, ih hwf.2 ht⟩
    have h0 := hwf.1.1.2
    simp only [Option.isNone_iff_eq_none] at h0 ⊢
    rw [lookup_append_right t [(k, v)] k0 h0]
    have h2 : ¬ k = k0 := fun hh => hne hh.symm
    simp [lookup, h2]

theorem wf_append_head {acc : Content} {k : String} {v : Value} {rest : Content}
    (hwf : wfContent (acc ++ (k, v) :: rest) = true) :
    validKeyB k = true ∧ wfValue v = true ∧ lookup acc k = none ∧
      lookup rest k = none ∧ wfContent ((acc ++ [(k, v)]) ++ rest) = true := by
  have hre : (acc ++ [(k, v)]) ++ rest = acc ++ (k, v) :: rest := by
    simp
  induction acc with
  | nil =>
    rw [List.nil_append, wfContent] at hwf
    simp only [Bool.and_eq_true] at hwf
    refine ⟨hwf.1.1.1, hwf.1.2, by simp [lookup], ?_, ?_⟩
    · simpa using hwf.1.1.2
    · rw [hre, List.nil_append]
      rw [wfContent]
      simp only [Bool.and_eq_true]
      exact hwf
  | cons hd t ih =>
    obtain ⟨k0, v0⟩ := hd
    rw [List.cons_append, wfContent] at hwf
    simp only [Bool.and_eq_true] at hwf
    have hnotin : lookup (t ++ (k, v) :: rest) k0 = none := by
      simpa using hwf.1.1.2
    have hne : k0 ≠ k := by
      intro hh
      subst hh
      rw [lookup_append (t) ((k0, v) :: rest) k0] at hnotin
      rcases hcase : lookup t k0 with _ | w
      · rw [hcase] at hnotin
        simp [lookup] at hnotin
      · rw [hcase] at hnotin
        simp at hnotin
    obtain ⟨h1, h2, h3, h4, h5⟩ := ih hwf.2 (by simp)
    refine ⟨h1, h2, ?_, h4, ?_⟩
    · simp [lookup, hne, h3]
    · have : ((k0, v0) :: t ++ [(k, v)]) ++ rest =
          (k0, v0) :: ((t ++ [(k, v)]) ++ rest) := by simp
      rw [this, wfContent]
      simp only [Bool.and_eq_true]
      refine ⟨⟨⟨hwf.1.1.1, ?_⟩, hwf.1.2⟩, h5⟩
      simp only [Option.isNone_iff_eq_none] at hnotin ⊢
      simp only [List.append_assoc, List.singleton_append]
      exact hnotin

/-! ### Lemmas about key validation and dot splitting -/

theorem validateKey_ok_of (k : String) (h : validKeyB k = true) :
    validateKey k = .ok () := by
  rw [validKeyB] at h
  rw [validateKey]
  rcases hd : k.data with _ | ⟨c, rest⟩
  · rw [hd] at h
    simp at h
  · rw [hd] at h
    simp only [Bool.and_eq_true, Bool.not_eq_true', decide_eq_false_iff_not] at h
    simp [h.1.1, h.1.2, h.2]

theorem validateKey_error_of (k : String) (h : validKeyB k = false) :
    ∃ m, validateKey k = .error (.invalid m) := by
  rw [validKeyB] at h
  rw [validateKey]
  rcases hd : k.data with _ | ⟨c, rest⟩
  · exact ⟨_, rfl⟩
  · rw [hd] at h
    simp only [Bool.and_eq_false_iff] at h
    by_cases h1 : c.isAlpha
    · by_cases h2 : isIdentifier k
      · have h3 : k ∈ reservedNames := by
          simp [h1, h2] at h
          exact h
        simp only [h1, h2, Bool.not_true, Bool.false_eq_true, if_false, h3, if_true]
        exact ⟨_, rfl⟩
      · simp only [h1, Bool.not_true, Bool.false_eq_true, if_false]
        simp only [h2, Bool.not_false, if_true]
        exact ⟨_, rfl⟩
    · simp only [h1]
      simp only [Bool.not_false, if_true]
      exact ⟨_, rfl⟩

theorem validKeyB_ident_chars {k : String} (h : validKeyB k = true) :
    ∀ c ∈ k.data, isIdentChar c = true := by
  intro x hx
  rw [validKeyB] at h
  rcases hd : k.data with _ | ⟨c, rest⟩
  · rw [hd] at hx
    simp at hx
  · rw [hd] at h hx
    simp only [Bool.and_eq_true] at h
    have hid := h.1.2
    rw [isIdentifier, hd] at hid
    simp only [Bool.and_eq_true, List.all_eq_true] at hid
    rcases List.mem_cons.mp hx with hx2 | hx2
    · subst hx2
      simp [isIdentChar, Char.isAlphanum, h.1.1]
    · exact hid.2 x hx2

theorem validKeyB_no_dot {k : String} (h : validKeyB k = true) :
    '.' ∉ k.data := by
  intro hmem
  have := validKeyB_ident_chars h _ hmem
  simp [isIdentChar, Char.isAlphanum, Char.isAlpha, Char.isDigit,
    Char.isUpper, Char.isLower] at this

theorem splitDotAux_no_dot (cs : List Char) (acc : List Char)
    (h : '.' ∉ cs) : splitDotAux cs acc = [acc.reverse ++ cs] := by
  induction cs generalizing acc with
  | nil => simp [splitDotAux]
  | cons c rest ih =>
    simp only [List.mem_cons, not_or] at h
    have hc : ¬ c = '.' := fun hh => h.1 hh.symm
    rw [splitDotAux]
    simp only [hc, if_false]
    rw [ih _ h.2]
    simp

theorem splitDot_no_dot {k : String} (h : '.' ∉ k.data) :
    splitDot k = [k] := by
  rw [splitDot, splitDotAux_no_dot _ _ h]
  simp

theorem validKeyB_splitDot {k : String} (h : validKeyB k = true) :
    splitDot k = [k] := splitDot_no_dot (validKeyB_no_dot h)

theorem ne_of_dot_mem {n p : String} (hn : '.' ∈ n.data)
    (hp : validKeyB p = true) : n ≠ p := by
  intro hh
  subst hh
  exact validKeyB_no_dot hp hn

/-! ### Wrapping lemmas -/

theorem wrapValue_scalar {v : Value} (h : isMapping v = false) :
    wrapValue v = .ok v := by
  cases v with
  | null => simp [wrapValue]
  | int n => simp [wrapValue]
  | str s => simp [wrapValue]
  | dict m => simp [isMapping] at h
  | conf m => simp [isMapping] at h

/-- `Configuration(**m)` rebuilds a well-formed content unchanged, and
well-formed values survive the `Configuration(**value)` wrapping attempt
unchanged.  (Mutual facts, proved by strong induction on size.) -/
theorem wrap_init_id :
    ∀ n : Nat,
      (∀ v, sizeOf v ≤ n → wfValue v = true → wrapValue v = .ok v) ∧
      (∀ entries acc, sizeOf entries ≤ n →
        wfContent (acc ++ entries) = true →
        initFold acc entries = .ok (acc ++ entries)) := by
  intro n
  induction n using Nat.strong_induction_on with
  | _ n ih =>
    constructor
    · intro v hv hwf
      match v with
      | .null | .int _ | .str _ =>
        exact wrapValue_scalar (by rfl)
      | .dict m => simp [wfValue] at hwf
      | .conf m =>
        have hsz : sizeOf m < n := by
          have : sizeOf (Value.conf m) = 1 + sizeOf m := by simp
          omega
        have hm : initFold [] m = .ok ([] ++ m) := by
          refine (ih (sizeOf m) hsz).2 m [] le_rfl ?_
          rw [List.nil_append]
          rw [wfValue] at hwf
          exact hwf
        rw [wrapValue, hm]
        simp
    · intro entries acc hsz hwf
      match entries with
      | [] => simp [initFold]
      | (k, v) :: rest =>
        obtain ⟨hk, hv, hacck, hrestk, hwf2⟩ := wf_append_head hwf
        have hszv : sizeOf v < n := by
          have h1 : sizeOf ((k, v) :: rest) =
              1 + (1 + sizeOf k + sizeOf v) + sizeOf rest := by simp
          omega
        have hszr : sizeOf rest < n := by
          have h1 : sizeOf ((k, v) :: rest) =
              1 + (1 + sizeOf k + sizeOf v) + sizeOf rest := by simp
          omega
        have hwrap : wrapValue v = .ok v :=
          (ih (sizeOf v) hszv).1 v le_rfl hv
        have hstep : setSegs acc [k] v = (acc ++ [(k, v)], none) := by
          rw [setSegs, validateKey_ok_of k hk]
          simp only [hacck, Option.isSome_none, Bool.false_eq_true, if_false]
          rw [hwrap]
          simp [setVal_absent acc k v hacck]
        rw [initFold, validKeyB_splitDot hk, hstep]
        simp only
        rw [(ih (sizeOf rest) hszr).2 rest (acc ++ [(k, v)]) le_rfl hwf2]
        simp

/-- `Configuration(**m) = m` for well-formed `m`. -/
theorem initFold_id {m : Content} (h : wfContent m = true) :
    initFold [] m = .ok m := by
  have := (wrap_init_id (sizeOf m)).2 m [] le_rfl (by simpa using h)
  simpa using this

/-- Well-formed values pass `Configuration(**value)` wrapping unchanged. -/
theorem wrapValue_id {v : Value} (h : wfValue v = true) :
    wrapValue v = .ok v :=
  (wrap_init_id (sizeOf v)).1 v le_rfl h

/-! ### Path lemmas -/

theorem lookup_append_single_ne (xs : Content) {k j : String} (v : Value)
    (h : j ≠ k) : lookup (xs ++ [(k, v)]) j = lookup xs j := by
  have h2 : ¬ k = j := fun hh => h hh.symm
  rw [lookup_append]
  rcases hx : lookup xs j with _ | w
  · simp [lookup, h2]
  · simp

theorem resolveRead_cons_conf {c sub : Content} {k k2 : String}
    {rest : List String} (h : lookup c k = some (.conf sub)) :
    resolveRead c (k :: k2 :: rest) = resolveRead sub (k2 :: rest) := by
  rw [resolveRead, h]

theorem getSegs_cons_conf {c sub : Content} {k k2 : String}
    {rest : List String} (h : lookup c k = some (.conf sub)) :
    getSegs c (k :: k2 :: rest) = getSegs sub (k2 :: rest) := by
  rw [getSegs, getSegs, resolveRead_cons_conf h]

theorem getSegs_single (c : Content) (k : String) :
    getSegs c [k] =
      match lookup c k with
      | some v => .ok v
      | none => .error (.key k) := by
  rw [getSegs, resolveRead]

/-- The central path lemma: if `segs` resolves to value `w`, then deleting
the leaf succeeds, re-inserting a (wrap-stable) value `v` afterwards
succeeds, the new leaf holds `v2`, and all sibling keys of the owner keep
their bindings. -/
theorem del_set_of_get (segs : List String) :
    ∀ (c : Content) (w v v2 : Value), wfContent c = true →
      getSegs c segs = .ok w → wrapValue v = .ok v2 →
      ∃ own fin c2 c3 own2,
        resolveRead c segs = .ok (own, fin) ∧ lookup own fin = some w ∧
        delSegs c segs = .ok c2 ∧ setSegs c2 segs v = (c3, none) ∧
        resolveRead c3 segs = .ok (own2, fin) ∧ lookup own2 fin = some v2 ∧
        (∀ j, j ≠ fin → lookup own2 j = lookup own j) := by
  induction segs with
  | nil =>
    intro c w v v2 hwf hget hv
    rw [getSegs, resolveRead] at hget
    exact absurd hget (by simp)
  | cons k rest ih =>
    intro c w v v2 hwf hget hv
    cases rest with
    | nil =>
      rw [getSegs_single] at hget
      rcases hl : lookup c k with _ | w0
      · rw [hl] at hget
        exact absurd hget (by simp)
      · rw [hl] at hget
        simp only [Except.ok.injEq] at hget
        subst hget
        have hvalid : validKeyB k = true := (wf_lookup hwf hl).1
        have herase : lookup (eraseKey c k) k = none :=
          wf_lookup_erase_self k hwf
        refine ⟨c, k, eraseKey c k, eraseKey c k ++ [(k, v2)],
          eraseKey c k ++ [(k, v2)], ?_, hl, ?_, ?_, ?_, ?_, ?_⟩
        · rw [resolveRead]
        · rw [delSegs, hl]
        · rw [setSegs, validateKey_ok_of k hvalid]
          simp only [herase, Option.isSome_none, Bool.false_eq_true, if_false, hv]
          rw [setVal_absent _ _ _ herase]
        · rw [resolveRead]
        · rw [lookup_append_right _ _ _ herase]
          simp [lookup]
        · intro j hj
          rw [lookup_append_single_ne _ _ hj, lookup_eraseKey_ne _ _ _ hj]
    | cons k2 rest2 =>
      rcases hl : lookup c k with _ | w0
      · simp [getSegs, resolveRead, hl] at hget
      · match w0 with
        | .conf sub =>
          have hwfsub : wfContent sub = true := by
            have := (wf_lookup hwf hl).2
            rw [wfValue] at this
            exact this
          rw [getSegs_cons_conf hl] at hget
          obtain ⟨own, fin, c2, c3, own2, h1, h2, h3, h4, h5, h6, h7⟩ :=
            ih sub w v v2 hwfsub hget hv
          refine ⟨own, fin, setVal c k (.conf c2),
            setVal (setVal c k (.conf c2)) k (.conf c3), own2,
            ?_, h2, ?_, ?_, ?_, h6, h7⟩
          · rw [resolveRead_cons_conf hl, h1]
          · rw [delSegs, hl]
            simp only [h3]
          · have hc2 : lookup (setVal c k (.conf c2)) k = some (.conf c2) :=
              lookup_setVal_self c k _
            rw [setSegs, hc2]
            simp only [h4]
          · have hc3 : lookup (setVal (setVal c k (.conf c2)) k (.conf c3)) k
                = some (.conf c3) := lookup_setVal_self _ k _
            rw [resolveRead_cons_conf hc3, h5]
        | .null | .int _ | .str _ | .dict _ =>
          simp [getSegs, resolveRead, hl] at hget

/-- Assigning to an already-resolvable key raises the Duplicate-Key
`ValueError` and leaves the tree unchanged. -/
theorem set_dup_of_get (segs : List String) :
    ∀ (c : Content) (w v : Value), wfContent c = true →
      getSegs c segs = .ok w →
      ∃ m, setSegs c segs v = (c, some (.dup m)) := by
  induction segs with
  | nil =>
    intro c w v hwf hget
    rw [getSegs, resolveRead] at hget
    exact absurd hget (by simp)
  | cons k rest ih =>
    intro c w v hwf hget
    cases rest with
    | nil =>
      rw [getSegs_single] at hget
      rcases hl : lookup c k with _ | w0
      · rw [hl] at hget
        exact absurd hget (by simp)
      · have hvalid : validKeyB k = true := (wf_lookup hwf hl).1
        refine ⟨"key " ++ k ++ " already defined, use overwrite methods instead", ?_⟩
        rw [setSegs, validateKey_ok_of k hvalid]
        simp [hl]
    | cons k2 rest2 =>
      rcases hl : lookup c k with _ | w0
      · simp [getSegs, resolveRead, hl] at hget
      · match w0 with
        | .conf sub =>
          have hwfsub : wfContent sub = true := by
            have := (wf_lookup hwf hl).2
            rw [wfValue] at this
            exact this
          rw [getSegs_cons_conf hl] at hget
          obtain ⟨m, hm⟩ := ih sub w v hwfsub hget
          refine ⟨m, ?_⟩
          rw [setSegs, hl]
          simp only [hm, setVal_self_id c k _ hl]
        | .null | .int _ | .str _ | .dict _ =>
          simp [getSegs, resolveRead, hl] at hget

/-! ### Fresh-path lemmas -/

theorem setSegs_fresh_build (segs : List String) :
    ∀ (v : Value), segs ≠ [] → segs.all validKeyB = true → isMapping v = false →
      setSegs [] segs v = (buildPath segs v, none) := by
  induction segs with
  | nil => intro v h _ _; exact absurd rfl h
  | cons k rest ih =>
    intro v _ hval hv
    simp only [List.all_cons, Bool.and_eq_true] at hval
    cases rest with
    | nil =>
      rw [setSegs, validateKey_ok_of k hval.1]
      simp only [lookup, Option.isSome_none, Bool.false_eq_true, if_false,
        wrapValue_scalar hv]
      rw [buildPath]
      rfl
    | cons k2 rest2 =>
      have hrec := ih v (by simp) hval.2 hv
      rw [setSegs]
      simp only [lookup, validateKey_ok_of k hval.1, hrec]
      rw [buildPath]
      rfl

theorem setSegs_fresh_parent (c : Content) (p k2 : String) (rest : List String)
    (v : Value) (hp : lookup c p = none)
    (hval : (p :: k2 :: rest).all validKeyB = true) (hv : isMapping v = false) :
    setSegs c (p :: k2 :: rest) v =
      (c ++ [(p, .conf (buildPath (k2 :: rest) v))], none) := by
  simp only [List.all_cons, Bool.and_eq_true] at hval
  have hrec := setSegs_fresh_build (k2 :: rest) v (by simp)
    (by simp [List.all_cons, hval.2.1, hval.2.2]) hv
  rw [setSegs, hp]
  simp only [validateKey_ok_of p hval.1, hrec]
  rw [setVal_absent _ _ _ hp]

theorem getSegs_buildPath (segs : List String) (v : Value) (h : segs ≠ []) :
    getSegs (buildPath segs v) segs = .ok v := by
  induction segs with
  | nil => exact absurd rfl h
  | cons k rest ih =>
    cases rest with
    | nil =>
      rw [buildPath, getSegs_single]
      simp [lookup]
    | cons k2 rest2 =>
      rw [buildPath]
      have hl : lookup [(k, Value.conf (buildPath (k2 :: rest2) v))] k
          = some (.conf (buildPath (k2 :: rest2) v)) := by simp [lookup]
      rw [getSegs_cons_conf hl]
      exact ih (by simp)

theorem wf_resolveRead (segs : List String) :
    ∀ (c own : Content) (fin : String), wfContent c = true →
      resolveRead c segs = .ok (own, fin) → wfContent own = true := by
  induction segs with
  | nil =>
    intro c own fin _ h
    rw [resolveRead] at h
    exact absurd h (by simp)
  | cons k rest ih =>
    intro c own fin hwf h
    cases rest with
    | nil =>
      rw [resolveRead] at h
      simp only [Except.ok.injEq, Prod.mk.injEq] at h
      rw [← h.1]
      exact hwf
    | cons k2 rest2 =>
      rcases hl : lookup c k with _ | w0
      · rw [resolveRead, hl] at h
        exact absurd h (by simp)
      · match w0 with
        | .conf sub =>
          have hwfsub : wfContent sub = true := by
            have := (wf_lookup hwf hl).2
            rw [wfValue] at this
            exact this
          rw [resolveRead_cons_conf hl] at h
          exact ih sub own fin hwfsub h
        | .null | .int _ | .str _ | .dict _ =>
          simp [resolveRead, hl] at h

/-!
## Claims

Each claim of CLAIMS.json is settled by exactly one theorem below (with a
witness instantiating its hypotheses, and a counterexample when the claim as
frozen fails on the code).
-/

/-- C6: whenever key `"a"` of `c` is bound to a sub-configuration binding
`"b"`, the reads `c["a.b"]`, `c["a"]["b"]` and `c[("a","b")]` all return the
same value. -/
theorem c6_dotted_key_equivalence (c s : Content) (v : Value)
    (ha : lookup c "a" = some (.conf s)) (hb : lookup s "b" = some v) :
    getItem c (.str "a.b") = .ok v ∧
    getItem c (.segs ["a", "b"]) = .ok v ∧
    getItem c (.str "a") = .ok (.conf s) ∧
    getItem s (.str "b") = .ok v := by
  have hsplit : splitDot "a.b" = ["a", "b"] := by decide
  have hone : splitDot "a" = ["a"] := by decide
  have htwo : splitDot "b" = ["b"] := by decide
  have hmain : getSegs c ["a", "b"] = .ok v := by
    rw [getSegs_cons_conf ha, getSegs_single, hb]
  refine ⟨?_, ?_, ?_, ?_⟩
  · rw [getItem, PKey.toSegs, hsplit]
    exact hmain
  · rw [getItem]
    exact hmain
  · rw [getItem, PKey.toSegs, hone, getSegs_single, ha]
  · rw [getItem, PKey.toSegs, htwo, getSegs_single, hb]

/-- C6 witness at `c = {a: {b: 5}}`. -/
theorem c6_witness :
    getItem [("a", Value.conf [("b", Value.int 5)])] (.str "a.b")
        = .ok (.int 5) ∧
    getItem [("a", Value.conf [("b", Value.int 5)])] (.segs ["a", "b"])
        = .ok (.int 5) ∧
    getItem [("a", Value.conf [("b", Value.int 5)])] (.str "a")
        = .ok (.conf [("b", Value.int 5)]) ∧
    getItem [("b", Value.int 5)] (.str "b") = .ok (.int 5) :=
  c6_dotted_key_equivalence [("a", .conf [("b", .int 5)])] [("b", .int 5)]
    (.int 5) (by simp [lookup]) (by simp [lookup])

/-- C7 counterexample: the claim quantifies over "every key that ...
contains characters that are not identifier-safe", which includes the dotted
key `"a.b"`; but `c["a.b"] = 1` does not raise Invalid-Key — the key is
split on the dot and bound as a nested path. -/
theorem c7_counterexample :
    setItem [] (.str "a.b") (.int 1) =
      ([("a", .conf [("b", .int 1)])], none) := by
  simp +decide [setItem, PKey.toSegs, splitDot, splitDotAux, setSegs,
    validateKey, lookup, setVal, wrapValue]

/-- C7 (amended): for every dot-free key that is empty, does not start with
a letter, contains non-identifier characters, or collides with a reserved
name, item assignment raises Invalid-Key and leaves the configuration
unchanged (dotted keys are instead split into segments, each segment subject
to these rules).  In particular `Configuration()["1abc"] = 1` and
`Configuration()["_x"] = 1` both raise Invalid-Key. -/
theorem c7_invalid_key_rejection (c : Content) (k : String) (v : Value)
    (hdotfree : '.' ∉ k.data) (hbad : validKeyB k = false) :
    ∃ m, setItem c (.str k) v = (c, some (.invalid m)) := by
  obtain ⟨m, hm⟩ := validateKey_error_of k hbad
  refine ⟨m, ?_⟩
  rw [setItem, PKey.toSegs, splitDot_no_dot hdotfree, setSegs]
  simp only [hm]

/-- C7 witness at the claim's two examples. -/
theorem c7_witness :
    ('.' ∉ "1abc".data) ∧ validKeyB "1abc" = false ∧
    ('.' ∉ "_x".data) ∧ validKeyB "_x" = false ∧
    (∃ m, setItem [] (.str "1abc") (.int 1) = ([], some (.invalid m))) ∧
    (∃ m, setItem [] (.str "_x") (.int 1) = ([], some (.invalid m))) := by
  refine ⟨by decide, by decide, by decide, by decide, ?_, ?_⟩
  · exact c7_invalid_key_rejection [] "1abc" (.int 1) (by decide) (by decide)
  · exact c7_invalid_key_rejection [] "_x" (.int 1) (by decide) (by decide)

/-- C9: with only a `.json` loader registered, `--config` naming a `.toml`
file makes `CLI.from_cli` raise an `AttributeError` (the handler calls the
nonexistent `argparse.error`), which propagates to the caller; the promised
usage-error exit never happens.  The claim is right about the intent — the
source's own comment says "Print error and exit" — so the code is the bug. -/
theorem c9_cli_unsupported_suffix :
    fromCliSuffix [".json"] ".toml" =
      .raises (.attr "module argparse has no attribute error") ∧
    ∀ msg, fromCliSuffix [".json"] ".toml" ≠ .usageExit msg := by
  constructor
  · simp +decide [fromCliSuffix]
  · intro msg
    simp +decide [fromCliSuffix]

/-- C3: key resolution walks all but the last segment.  On reads
(get/delete) an absent parent raises `KeyError` and nothing is created (the
read-mode resolver `resolveRead` cannot modify the tree by construction); on
writes (set/overwrite) an absent parent gets an empty `Configuration`
inserted and descended into (provided the created segments pass key
validation, which `root[k] = {}` performs); in both modes a parent bound to
a non-`Configuration` raises `KeyError`. -/
theorem c3_resolve_modes (c : Content) (p k2 : String) (rest : List String)
    (v : Value) :
    (lookup c p = none →
      getSegs c (p :: k2 :: rest) = .error (.key p) ∧
      delSegs c (p :: k2 :: rest) = .error (.key p)) ∧
    (lookup c p = none → (p :: k2 :: rest).all validKeyB = true →
      isMapping v = false →
      setSegs c (p :: k2 :: rest) v =
        (c ++ [(p, .conf (buildPath (k2 :: rest) v))], none) ∧
      getSegs (c ++ [(p, .conf (buildPath (k2 :: rest) v))])
          (p :: k2 :: rest) = .ok v ∧
      overwrite c (.segs (p :: k2 :: rest)) v =
        (c ++ [(p, .conf (buildPath (k2 :: rest) v))], .ok .null)) ∧
    (∀ w, lookup c p = some w → isConf w = false →
      getSegs c (p :: k2 :: rest) = .error (.key p) ∧
      delSegs c (p :: k2 :: rest) = .error (.key p) ∧
      setSegs c (p :: k2 :: rest) v = (c, some (.key p)) ∧
      overwrite c (.segs (p :: k2 :: rest)) v = (c, .error (.key p))) := by
  refine ⟨?_, ?_, ?_⟩
  · intro hp
    constructor
    · simp [getSegs, resolveRead, hp]
    · simp [delSegs, hp]
  · intro hp hval hv
    have hset := setSegs_fresh_parent c p k2 rest v hp hval hv
    have hgeterr : getSegs c (p :: k2 :: rest) = .error (.key p) := by
      simp [getSegs, resolveRead, hp]
    refine ⟨hset, ?_, ?_⟩
    · have hl : lookup (c ++ [(p, Value.conf (buildPath (k2 :: rest) v))]) p
          = some (.conf (buildPath (k2 :: rest) v)) := by
        rw [lookup_append_right _ _ _ hp]
        simp [lookup]
      rw [getSegs_cons_conf hl]
      exact getSegs_buildPath (k2 :: rest) v (by simp)
    · rw [overwrite]
      simp only [PKey.toSegs, popDefault, hgeterr]
      rw [finishSet]
      simp only [PKey.toSegs, hset]
  · intro w hp hw
    have hgeterr : getSegs c (p :: k2 :: rest) = .error (.key p) := by
      match w with
      | .conf _ => simp [isConf] at hw
      | .null | .int _ | .str _ | .dict _ => simp [getSegs, resolveRead, hp]
    have hseterr : setSegs c (p :: k2 :: rest) v = (c, some (.key p)) := by
      match w with
      | .conf _ => simp [isConf] at hw
      | .null | .int _ | .str _ | .dict _ => simp [setSegs, hp]
    refine ⟨hgeterr, ?_, hseterr, ?_⟩
    · match w with
      | .conf _ => simp [isConf] at hw
      | .null | .int _ | .str _ | .dict _ => simp [delSegs, hp]
    · rw [overwrite]
      simp only [PKey.toSegs, popDefault, hgeterr]
      rw [finishSet]
      simp only [PKey.toSegs, hseterr]

/-- C3 witness: part two at `c = {}` writing `a.b = 7`; parts one and three
at `c = {q: 7}` resolving through the missing parent `"a"` resp. the scalar
parent `"q"`. -/
theorem c3_witness :
    (getSegs [("q", Value.int 7)] ["a", "b"] = .error (.key "a") ∧
     delSegs [("q", Value.int 7)] ["a", "b"] = .error (.key "a")) ∧
    (setSegs [] ["a", "b"] (.int 7) =
        ([("a", .conf [("b", .int 7)])], none) ∧
     getSegs [("a", Value.conf [("b", Value.int 7)])] ["a", "b"]
        = .ok (.int 7) ∧
     overwrite [] (.segs ["a", "b"]) (.int 7) =
        ([("a", .conf [("b", .int 7)])], .ok .null)) ∧
    (getSegs [("q", Value.int 7)] ["q", "b"] = .error (.key "q") ∧
     delSegs [("q", Value.int 7)] ["q", "b"] = .error (.key "q") ∧
     setSegs [("q", Value.int 7)] ["q", "b"] (.int 7)
        = ([("q", Value.int 7)], some (.key "q")) ∧
     overwrite [("q", Value.int 7)] (.segs ["q", "b"]) (.int 7)
        = ([("q", Value.int 7)], .error (.key "q"))) := by
  refine ⟨?_, ?_, ?_⟩
  · exact (c3_resolve_modes [("q", .int 7)] "a" "b" [] (.int 7)).1
      (by simp [lookup])
  · exact (c3_resolve_modes [] "a" "b" [] (.int 7)).2.1 (by simp [lookup])
      (by decide) (by decide)
  · exact (c3_resolve_modes [("q", .int 7)] "q" "b" [] (.int 7)).2.2
      (.int 7) (by simp [lookup]) (by decide)

/-- C10: a keyword argument whose name contains a dot is not bound as a flat
key by the constructor: the name is split on the dots and bound as a nested
path (provided each segment passes key validation), so
`Configuration(**{"a.b": 1})` has a sub-configuration at `"a"` binding `"b"`
and no top-level key `"a.b"`. -/
theorem c10_dotted_kwargs_nested (name p k2 : String) (rest : List String)
    (v : Value) (hsplit : splitDot name = p :: k2 :: rest)
    (hdot : '.' ∈ name.data)
    (hval : (p :: k2 :: rest).all validKeyB = true)
    (hv : isMapping v = false) :
    initConf [(name, v)] = .ok [(p, .conf (buildPath (k2 :: rest) v))] ∧
    getSegs [(p, .conf (buildPath (k2 :: rest) v))] (p :: k2 :: rest)
      = .ok v ∧
    lookup [(p, .conf (buildPath (k2 :: rest) v))] name = none := by
  have hvalp : validKeyB p = true := by
    simp only [List.all_cons, Bool.and_eq_true] at hval
    exact hval.1
  have hfresh := setSegs_fresh_parent [] p k2 rest v rfl hval hv
  refine ⟨?_, ?_, ?_⟩
  · rw [initConf, initFold, hsplit]
    simp only [hfresh, List.nil_append]
    rw [initFold]
  · have hl : lookup [(p, Value.conf (buildPath (k2 :: rest) v))] p
        = some (.conf (buildPath (k2 :: rest) v)) := by simp [lookup]
    rw [getSegs_cons_conf hl]
    exact getSegs_buildPath (k2 :: rest) v (by simp)
  · have hne : ¬ p = name := fun hh => ne_of_dot_mem hdot hvalp hh.symm
    simp [lookup, hne]

/-- C10 witness at `Configuration(**{"a.b": 1})`. -/
theorem c10_witness :
    initConf [("a.b", Value.int 1)] =
      .ok [("a", .conf [("b", .int 1)])] ∧
    getSegs [("a", Value.conf [("b", Value.int 1)])] ["a", "b"]
      = .ok (.int 1) ∧
    lookup [("a", Value.conf [("b", Value.int 1)])] "a.b" = none :=
  c10_dotted_kwargs_nested "a.b" "a" "b" [] (.int 1) (by decide) (by decide)
    (by decide) (by decide)

/-- Overwriting a bound key whose old value is not mapping-shaped succeeds
and returns the old value, for every new value the `Configuration(**value)`
wrapping accepts. -/
theorem overwrite_nonmapping_old (c : Content) (k : PKey) (segs : List String)
    (w v v2 : Value) (hwf : wfContent c = true) (hk : k.toSegs = segs)
    (hget : getSegs c segs = .ok w) (hw : isMapping w = false)
    (hwrap : wrapValue v = .ok v2) :
    ∃ c3, overwrite c k v = (c3, .ok w) := by
  obtain ⟨own, fin, c2, c3, own2, h1, h2, h3, h4, h5, h6, h7⟩ :=
    del_set_of_get segs c w v v2 hwf hget hwrap
  have hpop : popDefault c segs = .ok (c2, some w) := by
    rw [popDefault]
    simp only [hget, h3]
  refine ⟨c3, ?_⟩
  rw [overwrite, hk]
  match w with
  | .null =>
    simp only [hpop]
    rw [finishSet]
    simp only [h4]
  | .int n =>
    simp only [hpop]
    rw [finishSet]
    simp only [h4]
  | .str s =>
    simp only [hpop]
    rw [finishSet]
    simp only [h4]
  | .dict m => simp [isMapping] at hw
  | .conf m => simp [isMapping] at hw

/-- C2 counterexample: with `c = Configuration(b=Configuration(y=2))` and
the already-bound key `"b"`, `c.overwrite("b", "hi")` does not succeed:
`overwrite_all("hi")` iterates the string, unpacking the one-character item
`"h"` raises `ValueError: not enough values to unpack`, which is not the
caught `TypeError`, so it propagates — and the popped key is already gone. -/
theorem c2_counterexample :
    overwrite [("b", .conf [("y", .int 2)])] (.str "b") (.str "hi") =
      ([], .error (.val "not enough values to unpack")) := by
  simp +decide [overwrite, PKey.toSegs, splitDot, splitDotAux, popDefault,
    getSegs, resolveRead, lookup, delSegs, eraseKey, overwriteMerge,
    initFold, setSegs, validateKey, wrapValue, setVal, finishSet]

/-- C2 (amended): for every bound key `k` of a well-formed configuration,
`c[k] = v2` raises the Duplicate-Key `ValueError` for any `v2`; and whenever
the previously bound value is not itself mapping-shaped, `c.overwrite(k,
v2)` succeeds and returns the previously bound value, for every `v2` the
`Configuration(**value)` wrapping accepts (every non-mapping, and every
mapping with valid contents).  (When the old value is a sub-configuration,
`overwrite` deep-merges mapping-shaped `v2` — returning the mapping of old
leaf values instead — and raises `ValueError` for non-empty string `v2`.) -/
theorem c2_rebind_vs_overwrite (c : Content) (k : PKey) (segs : List String)
    (w : Value) (hwf : wfContent c = true) (hk : k.toSegs = segs)
    (hget : getSegs c segs = .ok w) :
    (∀ v2, ∃ m, setItem c k v2 = (c, some (.dup m))) ∧
    (isMapping w = false → ∀ v2 v2w, wrapValue v2 = .ok v2w →
      ∃ c3, overwrite c k v2 = (c3, .ok w)) := by
  constructor
  · intro v2
    obtain ⟨m, hm⟩ := set_dup_of_get segs c w v2 hwf hget
    exact ⟨m, by rw [setItem, hk]; exact hm⟩
  · intro hw v2 v2w hwrap
    exact overwrite_nonmapping_old c k segs w v2 v2w hwf hk hget hw hwrap

/-- C2 witness at `c = {k: 1}`: rebinding raises for a scalar and for a
mapping-shaped `v2`; `overwrite` succeeds and returns `1` for a scalar and
for a mapping-shaped `v2`. -/
theorem c2_witness :
    (∃ m, setItem [("k", Value.int 1)] (.str "k") (.int 2)
      = ([("k", Value.int 1)], some (.dup m))) ∧
    (∃ m, setItem [("k", Value.int 1)] (.str "k") (.dict [("z", .int 3)])
      = ([("k", Value.int 1)], some (.dup m))) ∧
    (∃ c3, overwrite [("k", Value.int 1)] (.str "k") (.int 2)
      = (c3, .ok (.int 1))) ∧
    (∃ c3, overwrite [("k", Value.int 1)] (.str "k")
        (.dict [("z", .int 3)]) = (c3, .ok (.int 1))) := by
  have h := c2_rebind_vs_overwrite [("k", .int 1)] (.str "k") ["k"] (.int 1)
    (by simp +decide [wfContent, wfValue, lookup]) (by decide)
    (by rw [getSegs_single]; simp [lookup])
  refine ⟨h.1 (.int 2), h.1 (.dict [("z", .int 3)]),
    h.2 (by decide) (.int 2) (.int 2) (by simp [wrapValue]),
    h.2 (by decide) (.dict [("z", .int 3)]) (.conf [("z", .int 3)]) ?_⟩
  simp +decide [wrapValue, initFold, setSegs, splitDot, splitDotAux,
    validateKey, lookup, setVal]

/-! ### Strict-update lemmas for the merge operators -/

theorem wf_cons_parts {k : String} {v : Value} {t : Content}
    (h : wfContent ((k, v) :: t) = true) :
    validKeyB k = true ∧ lookup t k = none ∧ wfValue v = true ∧
      wfContent t = true := by
  rw [wfContent] at h
  simp only [Bool.and_eq_true] at h
  refine ⟨h.1.1.1, ?_, h.1.2, h.2⟩
  simpa using h.1.1.2

/-- One strict `self[key] = value` step of `update`, for a valid key and a
well-formed value: duplicate keys raise, fresh keys append. -/
theorem updateStrict_step_shape {s : Content} {k : String} {v : Value}
    (hk : validKeyB k = true) (hv : wfValue v = true) :
    setSegs s (splitDot k) v =
      if (lookup s k).isSome then
        (s, some (.dup ("key " ++ k ++
          " already defined, use overwrite methods instead")))
      else (s ++ [(k, v)], none) := by
  rw [validKeyB_splitDot hk, setSegs, validateKey_ok_of k hk]
  rcases hl : lookup s k with _ | w
  · simp only [Option.isSome_none, Bool.false_eq_true, if_false,
      wrapValue_id hv]
    rw [setVal_absent _ _ _ hl]
  · simp

/-- `update` with a well-formed mapping raises Duplicate-Key whenever some
key is bound both in the target and in the argument. -/
theorem updateStrict_collision (b : List (String × Value)) :
    ∀ (s : Content) (k : String), wfContent b = true →
      (lookup s k).isSome = true → (lookup b k).isSome = true →
      ∃ m, (updateStrict s b).2 = some (.dup m) := by
  induction b with
  | nil =>
    intro s k _ _ hb
    simp [lookup] at hb
  | cons hd t ih =>
    obtain ⟨kb, vb⟩ := hd
    intro s k hwfb hs hb
    obtain ⟨hkb, _, hvb, hwft⟩ := wf_cons_parts hwfb
    rw [updateStrict]
    simp only [updateStrict_step_shape hkb hvb]
    by_cases hcoll : (lookup s kb).isSome
    · simp [hcoll]
    · simp only [hcoll, Bool.false_eq_true, if_false]
      by_cases hk2 : kb = k
      · subst hk2
        exact absurd hs hcoll
      · have hk3 : k ≠ kb := fun hh => hk2 hh.symm
        have hs2 : (lookup (s ++ [(kb, vb)]) k).isSome = true := by
          rw [lookup_append_single_ne _ _ hk3]
          exact hs
        have hb2 : (lookup t k).isSome = true := by
          simpa [lookup, hk2] using hb
        exact ih (s ++ [(kb, vb)]) k hwft hs2 hb2

/-- `update` with a well-formed, key-disjoint mapping appends all entries. -/
theorem updateStrict_disjoint (b : List (String × Value)) :
    ∀ (s : Content), wfContent b = true →
      (∀ k, (lookup b k).isSome = true → lookup s k = none) →
      updateStrict s b = (s ++ b, none) := by
  induction b with
  | nil =>
    intro s _ _
    simp [updateStrict]
  | cons hd t ih =>
    obtain ⟨kb, vb⟩ := hd
    intro s hwfb hdisj
    obtain ⟨hkb, htb, hvb, hwft⟩ := wf_cons_parts hwfb
    have hfree : lookup s kb = none := hdisj kb (by simp [lookup])
    rw [updateStrict]
    simp only [updateStrict_step_shape hkb hvb, hfree, Option.isSome_none,
      Bool.false_eq_true, if_false]
    rw [ih (s ++ [(kb, vb)]) hwft ?_]
    · simp
    · intro k hk
      have hk2 : k ≠ kb := by
        intro hh
        subst hh
        rw [htb] at hk
        simp at hk
      have hkb2 : ¬ kb = k := fun hh => hk2 hh.symm
      have := hdisj k (by simp [lookup, hkb2, hk])
      rw [lookup_append_single_ne _ _ hk2]
      exact this

/-- C4 counterexample: the claim says the right-hand side's value overwrites
the left's at conflicting keys; in fact `{k: 1} | {k: 2}` raises the
Duplicate-Key `ValueError` instead of producing `{k: 2}`. -/
theorem c4_counterexample :
    orOp [("k", .int 1)] [("k", .int 2)] =
      .error (.dup "key k already defined, use overwrite methods instead") := by
  simp +decide [orOp, initFold, setSegs, splitDot, splitDotAux, validateKey,
    lookup, setVal, wrapValue, updateStrict]

/-- C4 (amended): for well-formed configurations binding a common key, all
three merge operators (`|`, right-`|`, in-place-`|`) raise the Duplicate-Key
`ValueError` — the merge goes through the strict no-rebind `__setitem__`, so
the right-hand side never silently overwrites a conflicting key. -/
theorem c4_merge_raises_on_conflict (a b : Content) (k : String)
    (hwa : wfContent a = true) (hwb : wfContent b = true)
    (ha : (lookup a k).isSome = true) (hb : (lookup b k).isSome = true) :
    (∃ m, orOp a b = .error (.dup m)) ∧
    (∃ m, rorOp a b = .error (.dup m)) ∧
    (∃ m, (iorOp a b).2 = some (.dup m)) := by
  refine ⟨?_, ?_, ?_⟩
  · obtain ⟨m, hm⟩ := updateStrict_collision b a k hwb ha hb
    refine ⟨m, ?_⟩
    rcases hu : updateStrict a b with ⟨c2, e2⟩
    rw [hu] at hm
    simp only at hm
    subst hm
    simp only [orOp, initFold_id hwa, hu]
  · obtain ⟨m, hm⟩ := updateStrict_collision a b k hwa hb ha
    refine ⟨m, ?_⟩
    rcases hu : updateStrict b a with ⟨c2, e2⟩
    rw [hu] at hm
    simp only at hm
    subst hm
    simp only [rorOp, initFold_id hwb, hu]
  · obtain ⟨m, hm⟩ := updateStrict_collision b a k hwb ha hb
    exact ⟨m, by rw [iorOp]; exact hm⟩

/-- C4 witness at `a = {k: 1}`, `b = {k: 2}`. -/
theorem c4_witness :
    (∃ m, orOp [("k", Value.int 1)] [("k", Value.int 2)]
      = .error (.dup m)) ∧
    (∃ m, rorOp [("k", Value.int 1)] [("k", Value.int 2)]
      = .error (.dup m)) ∧
    (∃ m, (iorOp [("k", Value.int 1)] [("k", Value.int 2)]).2
      = some (.dup m)) :=
  c4_merge_raises_on_conflict [("k", .int 1)] [("k", .int 2)] "k"
    (by simp +decide [wfContent, wfValue, lookup])
    (by simp +decide [wfContent, wfValue, lookup])
    (by simp [lookup]) (by simp [lookup])

/-- C5: `self | other` seeds a new configuration with `self`'s entries and
strictly updates with `other`'s: with disjoint keys it succeeds, every key
resolving to `self`'s binding first and `other`'s otherwise; whenever some
key of `other` is already bound in `self`, it raises the Duplicate-Key
`ValueError`. -/
theorem c5_or_strict_combination (a b : Content)
    (hwa : wfContent a = true) (hwb : wfContent b = true) :
    ((∀ k, (lookup b k).isSome = true → lookup a k = none) →
      orOp a b = .ok (a ++ b) ∧
      ∀ k, lookup (a ++ b) k =
        match lookup a k with
        | some v => some v
        | none => lookup b k) ∧
    ((∃ k, (lookup a k).isSome = true ∧ (lookup b k).isSome = true) →
      ∃ m, orOp a b = .error (.dup m)) := by
  constructor
  · intro hdisj
    constructor
    · simp only [orOp, initFold_id hwa, updateStrict_disjoint b a hwb hdisj]
    · intro k
      exact lookup_append a b k
  · rintro ⟨k, ha, hb⟩
    obtain ⟨m, hm⟩ := updateStrict_collision b a k hwb ha hb
    refine ⟨m, ?_⟩
    rcases hu : updateStrict a b with ⟨c2, e2⟩
    rw [hu] at hm
    simp only at hm
    subst hm
    simp only [orOp, initFold_id hwa, hu]

/-- C5 witness: disjoint `{p: 1} | {q: 2}` combines; `{p: 1} | {p: 3}`
raises Duplicate-Key. -/
theorem c5_witness :
    (orOp [("p", Value.int 1)] [("q", Value.int 2)]
      = .ok [("p", Value.int 1), ("q", Value.int 2)]) ∧
    (∃ m, orOp [("p", Value.int 1)] [("p", Value.int 3)]
      = .error (.dup m)) := by
  constructor
  · exact ((c5_or_strict_combination [("p", .int 1)] [("q", .int 2)]
      (by simp +decide [wfContent, wfValue, lookup])
      (by simp +decide [wfContent, wfValue, lookup])).1
      (by intro k hk; revert hk; simp +decide [lookup]; intro h; subst h; simp +decide [lookup])).1
  · exact (c5_or_strict_combination [("p", .int 1)] [("p", .int 3)]
      (by simp +decide [wfContent, wfValue, lookup])
      (by simp +decide [wfContent, wfValue, lookup])).2
      ⟨"p", by simp [lookup], by simp [lookup]⟩

/-! ### Flat-content and single-key overwrite lemmas (towards C1) -/

theorem scalar_wfValue {v : Value} (h : isMapping v = false) :
    wfValue v = true := by
  cases v <;> simp_all [isMapping, wfValue]

theorem lookup_isSome_of_mem {l : Content} {kv : String × Value}
    (h : kv ∈ l) : (lookup l kv.1).isSome = true := by
  induction l with
  | nil => simp at h
  | cons hd t ih =>
    obtain ⟨k0, v0⟩ := hd
    rcases List.mem_cons.mp h with h2 | h2
    · subst h2
      simp [lookup]
    · by_cases hk : k0 = kv.1 <;> simp [lookup, hk, ih h2]

/-- `overwrite` at a bound single-segment key holding a non-mapping value:
the old value comes back, the key is re-bound (to the wrapped new value) at
the end. -/
theorem overwrite_bound {sub : Content} {k : String} {v v2 w : Value}
    (hwf : wfContent sub = true) (hl : lookup sub k = some w)
    (hwscalar : isMapping w = false) (hwrap : wrapValue v = .ok v2) :
    overwrite sub (.str k) v = (eraseKey sub k ++ [(k, v2)], .ok w) := by
  have hk : validKeyB k = true := (wf_lookup hwf hl).1
  have hsplit : PKey.toSegs (.str k) = [k] := by
    rw [PKey.toSegs, validKeyB_splitDot hk]
  have hget : getSegs sub [k] = .ok w := by rw [getSegs_single, hl]
  have hdel : delSegs sub [k] = .ok (eraseKey sub k) := by rw [delSegs, hl]
  have hpop : popDefault sub [k] = .ok (eraseKey sub k, some w) := by
    rw [popDefault]
    simp only [hget, hdel]
  have herase : lookup (eraseKey sub k) k = none := wf_lookup_erase_self k hwf
  have hset : setSegs (eraseKey sub k) [k] v =
      (eraseKey sub k ++ [(k, v2)], none) := by
    rw [setSegs, validateKey_ok_of k hk]
    simp only [herase, Option.isSome_none, Bool.false_eq_true, if_false,
      hwrap]
    rw [setVal_absent _ _ _ herase]
  rw [overwrite, hsplit]
  match w with
  | .null =>
    simp only [hpop]
    rw [finishSet]
    simp only [hset]
  | .int n =>
    simp only [hpop]
    rw [finishSet]
    simp only [hset]
  | .str s =>
    simp only [hpop]
    rw [finishSet]
    simp only [hset]
  | .dict mm => simp [isMapping] at hwscalar
  | .conf mm => simp [isMapping] at hwscalar

/-- `overwrite` at an unbound valid single-segment key binds it (to the
wrapped new value) and returns `None`. -/
theorem overwrite_fresh {sub : Content} {k : String} {v v2 : Value}
    (hk : validKeyB k = true) (hl : lookup sub k = none)
    (hwrap : wrapValue v = .ok v2) :
    overwrite sub (.str k) v = (sub ++ [(k, v2)], .ok .null) := by
  have hsplit : PKey.toSegs (.str k) = [k] := by
    rw [PKey.toSegs, validKeyB_splitDot hk]
  have hget : getSegs sub [k] = .error (.key k) := by rw [getSegs_single, hl]
  have hpop : popDefault sub [k] = .ok (sub, none) := by
    rw [popDefault]
    simp only [hget]
  have hset : setSegs sub [k] v = (sub ++ [(k, v2)], none) := by
    rw [setSegs, validateKey_ok_of k hk]
    simp only [hl, Option.isSome_none, Bool.false_eq_true, if_false, hwrap]
    rw [setVal_absent _ _ _ hl]
  rw [overwrite, hsplit]
  simp only [hpop]
  rw [finishSet]
  simp only [hset]

theorem getSegs_ok_parts {c : Content} {segs : List String} {w : Value}
    (h : getSegs c segs = .ok w) :
    ∃ own fin, resolveRead c segs = .ok (own, fin) ∧
      lookup own fin = some w := by
  cases hr : resolveRead c segs with
  | error e =>
    simp only [getSegs, hr] at h
    exact absurd h (by simp)
  | ok of =>
    obtain ⟨own, fin⟩ := of
    simp only [getSegs, hr] at h
    refine ⟨own, fin, rfl, ?_⟩
    rcases hl : lookup own fin with _ | w0
    · simp only [hl] at h
      exact absurd h (by simp)
    · simp only [hl, Except.ok.injEq] at h
      subst h
      rfl

/-! ### Recursive deep-merge specification (towards C1) -/

mutual

/-- A value that the `Configuration(**value)` wrapping accepts everywhere:
mappings have valid, unique identifier keys at every level. -/
def goodEntriesV : Value → Bool
  | .null => true
  | .int _ => true
  | .str _ => true
  | .dict m => goodEntriesL m
  | .conf m => goodEntriesL m
termination_by v => sizeOf v

/-- Entry lists acceptable to `Configuration(**...)`. -/
def goodEntriesL : List (String × Value) → Bool
  | [] => true
  | (k, v) :: t =>
    validKeyB k && (lookup t k).isNone && goodEntriesV v && goodEntriesL t
termination_by l => sizeOf l

end

mutual

/-- The recursive `Configuration` wrapping of a value — what
`Configuration(**value)` builds for well-behaved entries: every mapping
level becomes a `Configuration`. -/
def deepWrapVal : Value → Value
  | .null => .null
  | .int n => .int n
  | .str s => .str s
  | .dict m => .conf (deepWrapList m)
  | .conf m => .conf (deepWrapList m)
termination_by v => sizeOf v

/-- `deepWrapVal` over the values of one level. -/
def deepWrapList : List (String × Value) → Content
  | [] => []
  | (k, v) :: t => (k, deepWrapVal v) :: deepWrapList t
termination_by l => sizeOf l

end

/-- Precondition for the recursive overwrite-merge to run without raising
(exactly the behaviours the source forces): every key of the mapping is a
valid identifier, keys are unique per level, a mapping-shaped value meeting
a sub-configuration old value satisfies the same condition recursively
against it, a string value may meet a sub-configuration old value only when
empty (a non-empty string raises `ValueError` in `overwrite_all`), and a
value bound over a non-sub-configuration or absent old value must be
wrappable (`goodEntriesV`). -/
def mergeOK (sub : Content) : List (String × Value) → Bool
  | [] => true
  | (k, v) :: t =>
    validKeyB k && (lookup t k).isNone &&
    (match lookup sub k with
     | some (.conf s) =>
       match v with
       | .dict m2 => mergeOK s m2
       | .conf m2 => mergeOK s m2
       | .str s2 => decide (s2 = "")
       | _ => true
     | _ => goodEntriesV v) &&
    mergeOK sub t
termination_by l => sizeOf l

mutual

/-- One step of the specification-side merge: the value that key `k` ends
up bound to, and the old value reported for it.  A mapping-shaped value
meeting a sub-configuration old value merges into it recursively; a string
meeting a sub-configuration re-binds the rebuilt sub-configuration and
records `{}` as the old value; any other value overwrites the old binding
and records the old value (`None` when the key was absent). -/
def specMergeHead (sub : Content) (k : String) (v : Value) : Value × Value :=
  match lookup sub k with
  | some (.conf s) =>
    match v with
    | .dict m2 => (Value.conf (specMerge s m2).1, Value.dict (specMerge s m2).2)
    | .conf m2 => (Value.conf (specMerge s m2).1, Value.dict (specMerge s m2).2)
    | .str _ => (Value.conf s, Value.dict [])
    | w2 => (w2, Value.conf s)
  | some w => (deepWrapVal v, w)
  | none => (deepWrapVal v, Value.null)
termination_by (sizeOf v, 0)

/-- Specification-side recursive overwrite-merge, following the spec's
"deep-merge-by-overwrite, not replace" description of `overwrite` /
`overwrite_all`: each entry in order re-binds its key at the end (as `pop` +
`__setitem__` do) to the `specMergeHead` result.  Returns the new content
and the mapping of old values in entry order. -/
def specMerge (sub : Content) : List (String × Value) → Content × Content
  | [] => (sub, [])
  | (k, v) :: t =>
    ((specMerge (eraseKey sub k ++ [(k, (specMergeHead sub k v).1)]) t).1,
     (k, (specMergeHead sub k v).2) ::
       (specMerge (eraseKey sub k ++ [(k, (specMergeHead sub k v).1)]) t).2)
termination_by m => (sizeOf m, 1)

end

/-! ### Helper lemmas for the deep-merge correspondence -/

theorem eraseKey_absent (c : Content) (k : String) (h : lookup c k = none) :
    eraseKey c k = c := by
  induction c with
  | nil => rfl
  | cons hd t ih =>
    obtain ⟨k0, v0⟩ := hd
    rw [lookup] at h
    rw [eraseKey]
    by_cases hk0 : k0 = k
    · simp [hk0] at h
    · rw [if_neg hk0]
      rw [if_neg hk0] at h
      rw [ih h]

theorem setSegs_single_fresh {c1 : Content} {k : String} {v v2 : Value}
    (hk : validKeyB k = true) (hl : lookup c1 k = none)
    (hwrap : wrapValue v = .ok v2) :
    setSegs c1 [k] v = (c1 ++ [(k, v2)], none) := by
  rw [setSegs, validateKey_ok_of k hk]
  simp only [hl, Option.isSome_none, Bool.false_eq_true, if_false, hwrap]
  rw [setVal_absent _ _ _ hl]

theorem popDefault_single_bound {sub : Content} {k : String} {w : Value}
    (hl : lookup sub k = some w) :
    popDefault sub [k] = .ok (eraseKey sub k, some w) := by
  have hget : getSegs sub [k] = .ok w := by rw [getSegs_single, hl]
  have hdel : delSegs sub [k] = .ok (eraseKey sub k) := by rw [delSegs, hl]
  rw [popDefault]
  simp only [hget, hdel]

theorem popDefault_single_absent {sub : Content} {k : String}
    (hl : lookup sub k = none) :
    popDefault sub [k] = .ok (sub, none) := by
  have hget : getSegs sub [k] = .error (.key k) := by rw [getSegs_single, hl]
  rw [popDefault]
  simp only [hget]

theorem lookup_deepWrapList_none (t : List (String × Value)) (k : String)
    (h : lookup t k = none) : lookup (deepWrapList t) k = none := by
  induction t with
  | nil => rw [deepWrapList]; rfl
  | cons hd t2 ih =>
    obtain ⟨k0, v0⟩ := hd
    rw [deepWrapList]
    rw [lookup] at h ⊢
    by_cases hk0 : k0 = k
    · simp [hk0] at h
    · rw [if_neg hk0]
      rw [if_neg hk0] at h
      exact ih h

theorem deepWrapVal_scalar {v : Value} (h : isMapping v = false) :
    deepWrapVal v = v := by
  cases v <;> simp_all [isMapping, deepWrapVal]

/-- `Configuration(**value)` wrapping on good entries builds exactly the
recursive `deepWrap` tree, which is well-formed.  (Mutual facts, proved by
strong induction on size.) -/
theorem deepWrap_good :
    ∀ n : Nat,
      (∀ v, sizeOf v ≤ n → goodEntriesV v = true →
        wrapValue v = .ok (deepWrapVal v) ∧ wfValue (deepWrapVal v) = true) ∧
      (∀ entries, sizeOf entries ≤ n → goodEntriesL entries = true →
        wfContent (deepWrapList entries) = true ∧
        ∀ acc, (∀ j, (lookup entries j).isSome = true → lookup acc j = none) →
          initFold acc entries = .ok (acc ++ deepWrapList entries)) := by
  intro n
  induction n using Nat.strong_induction_on with
  | _ n ih =>
    constructor
    · intro v hsz hg
      match v with
      | .null =>
        rw [deepWrapVal]
        exact ⟨wrapValue_scalar (by decide), by rw [wfValue]⟩
      | .int n0 =>
        rw [deepWrapVal]
        exact ⟨wrapValue_scalar rfl, by rw [wfValue]⟩
      | .str s0 =>
        rw [deepWrapVal]
        exact ⟨wrapValue_scalar rfl, by rw [wfValue]⟩
      | .dict m =>
        rw [goodEntriesV] at hg
        have hszm : sizeOf m < n := by
          have : sizeOf (Value.dict m) = 1 + sizeOf m := by simp
          omega
        have hL := (ih (sizeOf m) hszm).2 m le_rfl hg
        have hfold : initFold [] m = .ok (deepWrapList m) := by
          have := hL.2 [] (fun j _ => rfl)
          simpa using this
        constructor
        · rw [wrapValue, hfold, deepWrapVal]
        · rw [deepWrapVal, wfValue]
          exact hL.1
      | .conf m =>
        rw [goodEntriesV] at hg
        have hszm : sizeOf m < n := by
          have : sizeOf (Value.conf m) = 1 + sizeOf m := by simp
          omega
        have hL := (ih (sizeOf m) hszm).2 m le_rfl hg
        have hfold : initFold [] m = .ok (deepWrapList m) := by
          have := hL.2 [] (fun j _ => rfl)
          simpa using this
        constructor
        · rw [wrapValue, hfold, deepWrapVal]
        · rw [deepWrapVal, wfValue]
          exact hL.1
    · intro entries hsz hg
      match entries with
      | [] =>
        refine ⟨by rw [deepWrapList, wfContent], ?_⟩
        intro acc _
        rw [initFold, deepWrapList]
        simp
      | (k, v) :: t =>
        rw [goodEntriesL] at hg
        simp only [Bool.and_eq_true] at hg
        obtain ⟨⟨⟨hk, htk⟩, hgv⟩, hgt⟩ := hg
        have hszv : sizeOf v < n := by
          have : sizeOf ((k, v) :: t) =
              1 + (1 + sizeOf k + sizeOf v) + sizeOf t := by simp
          omega
        have hszt : sizeOf t < n := by
          have : sizeOf ((k, v) :: t) =
              1 + (1 + sizeOf k + sizeOf v) + sizeOf t := by simp
          omega
        have hV := (ih (sizeOf v) hszv).1 v le_rfl hgv
        have hT := (ih (sizeOf t) hszt).2 t le_rfl hgt
        have htk2 : lookup t k = none := Option.isNone_iff_eq_none.mp htk
        refine ⟨?_, ?_⟩
        · rw [deepWrapList, wfContent]
          have h2 : lookup (deepWrapList t) k = none :=
            lookup_deepWrapList_none t k htk2
          simp [hk, h2, hV.2, hT.1]
        · intro acc hdisj
          have hacck : lookup acc k = none := by
            refine hdisj k ?_
            rw [lookup]
            simp
          have hstep : setSegs acc [k] v = (acc ++ [(k, deepWrapVal v)], none) :=
            setSegs_single_fresh hk hacck hV.1
          have hdisj2 : ∀ j, (lookup t j).isSome = true →
              lookup (acc ++ [(k, deepWrapVal v)]) j = none := by
            intro j hj
            have hjk : j ≠ k := by
              intro he
              subst he
              rw [htk2] at hj
              simp at hj
            rw [lookup_append_single_ne _ _ hjk]
            refine hdisj j ?_
            rw [lookup]
            have h2 : ¬ k = j := fun hh => hjk hh.symm
            simp [h2, hj]
          rw [initFold, validKeyB_splitDot hk, hstep]
          simp only
          rw [hT.2 _ hdisj2, deepWrapList]
          simp

/-- Good values pass the `Configuration(**value)` wrapping as their
recursive `Configuration` form. -/
theorem wrapValue_good {v : Value} (h : goodEntriesV v = true) :
    wrapValue v = .ok (deepWrapVal v) :=
  ((deepWrap_good (sizeOf v)).1 v le_rfl h).1

/-- Good values wrap into well-formed values. -/
theorem deepWrapVal_wf {v : Value} (h : goodEntriesV v = true) :
    wfValue (deepWrapVal v) = true :=
  ((deepWrap_good (sizeOf v)).1 v le_rfl h).2

/-- `mergeOK` only inspects the bindings of the keys mentioned in the
mapping; contents agreeing on those keys accept the same mappings. -/
theorem mergeOK_congr (t : List (String × Value)) :
    ∀ (sub sub2 : Content),
      (∀ j, (lookup t j).isSome = true → lookup sub2 j = lookup sub j) →
      mergeOK sub2 t = mergeOK sub t := by
  induction t with
  | nil =>
    intro sub sub2 _
    rw [mergeOK, mergeOK]
  | cons hd t2 ih =>
    obtain ⟨k2, v2⟩ := hd
    intro sub sub2 h
    have hk2 : lookup sub2 k2 = lookup sub k2 := by
      refine h k2 ?_
      rw [lookup]
      simp
    have htail : ∀ j, (lookup t2 j).isSome = true →
        lookup sub2 j = lookup sub j := by
      intro j hj
      refine h j ?_
      rw [lookup]
      by_cases hkj : k2 = j
      · simp [hkj]
      · simp [hkj, hj]
    rw [mergeOK, mergeOK, hk2, ih sub sub2 htail]

/-- Keys not mentioned in the merged mapping keep their binding through
`specMerge`. -/
theorem specMerge_fst_unmentioned (m : List (String × Value)) :
    ∀ (sub : Content) (j : String), lookup m j = none →
      lookup (specMerge sub m).1 j = lookup sub j := by
  induction m with
  | nil =>
    intro sub j _
    rw [specMerge]
  | cons hd t ih =>
    obtain ⟨k, v⟩ := hd
    intro sub j hj
    rw [lookup] at hj
    by_cases hkj : k = j
    · simp [hkj] at hj
    · rw [if_neg hkj] at hj
      have hjk : j ≠ k := fun hh => hkj hh.symm
      have hrec := ih (eraseKey sub k ++ [(k, (specMergeHead sub k v).1)]) j hj
      rw [specMerge]
      simp only [hrec, lookup_append_single_ne _ _ hjk,
        lookup_eraseKey_ne _ _ _ hjk]

/-- The mapping of old values returned by `specMerge` has exactly the keys
of the merged mapping, in order. -/
theorem specMerge_snd_keys (m : List (String × Value)) :
    ∀ (sub : Content),
      ((specMerge sub m).2).map Prod.fst = m.map Prod.fst := by
  induction m with
  | nil =>
    intro sub
    rw [specMerge]
  | cons hd t ih =>
    obtain ⟨k, v⟩ := hd
    intro sub
    rw [specMerge]
    simp only [List.map_cons]
    rw [ih]

/-- `overwrite_all` over a mapping that merges cleanly computes exactly the
specification-side recursive merge: the merged content is well-formed,
every merged key ends up bound, and the fold returns the merged content
together with the accumulated mapping of old values. -/
theorem overwriteAllFold_spec :
    ∀ n : Nat, ∀ (sub : Content) (m : List (String × Value)),
      sizeOf m ≤ n → wfContent sub = true → mergeOK sub m = true →
      wfContent (specMerge sub m).1 = true ∧
      (∀ j, (lookup m j).isSome = true →
        (lookup (specMerge sub m).1 j).isSome = true) ∧
      ∀ olds, (∀ j, (lookup m j).isSome = true → lookup olds j = none) →
        overwriteAllFold sub olds m =
          ((specMerge sub m).1, .ok (olds ++ (specMerge sub m).2)) := by
  intro n
  induction n using Nat.strong_induction_on with
  | _ n ih =>
    intro sub m hsz hwf hmok
    match m with
    | [] =>
      refine ⟨?_, ?_, ?_⟩
      · rw [specMerge]
        exact hwf
      · intro j hj
        rw [lookup] at hj
        simp at hj
      · intro olds _
        rw [specMerge, overwriteAllFold]
        simp
    | (k, v) :: t =>
      rw [mergeOK] at hmok
      simp only [Bool.and_eq_true] at hmok
      obtain ⟨⟨⟨hk, htk⟩, hmid⟩, hmt⟩ := hmok
      have htk2 : lookup t k = none := Option.isNone_iff_eq_none.mp htk
      have hsplit : PKey.toSegs (.str k) = [k] := by
        rw [PKey.toSegs, validKeyB_splitDot hk]
      have hszt : sizeOf t < n := by
        have h1 : sizeOf ((k, v) :: t) =
            1 + (1 + sizeOf k + sizeOf v) + sizeOf t := by simp
        omega
      have key : overwrite sub (.str k) v =
            (eraseKey sub k ++ [(k, (specMergeHead sub k v).1)],
             .ok (specMergeHead sub k v).2) ∧
          wfValue (specMergeHead sub k v).1 = true := by
        rcases hl : lookup sub k with _ | w
        · have hgv : goodEntriesV v = true := by
            simp only [hl] at hmid
            exact hmid
          have hhead : specMergeHead sub k v = (deepWrapVal v, .null) := by
            rw [specMergeHead]
            simp only [hl]
          have hov := overwrite_fresh hk hl (wrapValue_good hgv)
          rw [hhead]
          constructor
          · rw [eraseKey_absent sub k hl]
            exact hov
          · exact deepWrapVal_wf hgv
        · match w with
          | .dict d =>
            have hbad := (wf_lookup hwf hl).2
            rw [wfValue] at hbad
            exact absurd hbad (by simp)
          | .null =>
            have hgv : goodEntriesV v = true := by
              simp only [hl] at hmid
              exact hmid
            have hhead : specMergeHead sub k v = (deepWrapVal v, .null) := by
              rw [specMergeHead]
              simp only [hl]
            have hov := overwrite_bound hwf hl rfl (wrapValue_good hgv)
            rw [hhead]
            exact ⟨hov, deepWrapVal_wf hgv⟩
          | .int n0 =>
            have hgv : goodEntriesV v = true := by
              simp only [hl] at hmid
              exact hmid
            have hhead : specMergeHead sub k v = (deepWrapVal v, .int n0) := by
              rw [specMergeHead]
              simp only [hl]
            have hov := overwrite_bound hwf hl rfl (wrapValue_good hgv)
            rw [hhead]
            exact ⟨hov, deepWrapVal_wf hgv⟩
          | .str s0 =>
            have hgv : goodEntriesV v = true := by
              simp only [hl] at hmid
              exact hmid
            have hhead : specMergeHead sub k v = (deepWrapVal v, .str s0) := by
              rw [specMergeHead]
              simp only [hl]
            have hov := overwrite_bound hwf hl rfl (wrapValue_good hgv)
            rw [hhead]
            exact ⟨hov, deepWrapVal_wf hgv⟩
          | .conf s =>
            have hwfs : wfContent s = true := by
              have h0 := (wf_lookup hwf hl).2
              rw [wfValue] at h0
              exact h0
            have hpop := popDefault_single_bound hl
            have herase : lookup (eraseKey sub k) k = none :=
              wf_lookup_erase_self k hwf
            match v with
            | .dict m2 =>
              have hm2 : mergeOK s m2 = true := by
                simp only [hl] at hmid
                exact hmid
              have hszm2 : sizeOf m2 < n := by
                have h1 : sizeOf ((k, Value.dict m2) :: t) =
                    1 + (1 + sizeOf k + (1 + sizeOf m2)) + sizeOf t := by simp
                omega
              have hIH2 := ih (sizeOf m2) hszm2 s m2 le_rfl hwfs hm2
              have hfold : overwriteAllFold s [] m2 =
                  ((specMerge s m2).1, .ok (specMerge s m2).2) := by
                have h0 := hIH2.2.2 [] (fun j _ => rfl)
                simpa using h0
              have hwrapM : wrapValue (.conf (specMerge s m2).1) =
                  .ok (.conf (specMerge s m2).1) := by
                refine wrapValue_id ?_
                rw [wfValue]
                exact hIH2.1
              have hset := setSegs_single_fresh hk herase hwrapM
              have hhead : specMergeHead sub k (.dict m2) =
                  (.conf (specMerge s m2).1, .dict (specMerge s m2).2) := by
                rw [specMergeHead]
                simp only [hl]
              rw [hhead]
              constructor
              · rw [overwrite, hsplit]
                simp only [hpop]
                rw [overwriteMerge, initFold_id hwfs]
                simp only [hfold]
                rw [finishSet]
                simp only [hset]
              · rw [wfValue]
                exact hIH2.1
            | .conf m2 =>
              have hm2 : mergeOK s m2 = true := by
                simp only [hl] at hmid
                exact hmid
              have hszm2 : sizeOf m2 < n := by
                have h1 : sizeOf ((k, Value.conf m2) :: t) =
                    1 + (1 + sizeOf k + (1 + sizeOf m2)) + sizeOf t := by simp
                omega
              have hIH2 := ih (sizeOf m2) hszm2 s m2 le_rfl hwfs hm2
              have hfold : overwriteAllFold s [] m2 =
                  ((specMerge s m2).1, .ok (specMerge s m2).2) := by
                have h0 := hIH2.2.2 [] (fun j _ => rfl)
                simpa using h0
              have hwrapM : wrapValue (.conf (specMerge s m2).1) =
                  .ok (.conf (specMerge s m2).1) := by
                refine wrapValue_id ?_
                rw [wfValue]
                exact hIH2.1
              have hset := setSegs_single_fresh hk herase hwrapM
              have hhead : specMergeHead sub k (.conf m2) =
                  (.conf (specMerge s m2).1, .dict (specMerge s m2).2) := by
                rw [specMergeHead]
                simp only [hl]
              rw [hhead]
              constructor
              · rw [overwrite, hsplit]
                simp only [hpop]
                rw [overwriteMerge, initFold_id hwfs]
                simp only [hfold]
                rw [finishSet]
                simp only [hset]
              · rw [wfValue]
                exact hIH2.1
            | .str s2 =>
              have hs2 : s2 = "" := by
                simp only [hl] at hmid
                exact of_decide_eq_true hmid
              subst hs2
              have hwrapM : wrapValue (.conf s) = .ok (.conf s) := by
                refine wrapValue_id ?_
                rw [wfValue]
                exact hwfs
              have hset := setSegs_single_fresh hk herase hwrapM
              have hhead : specMergeHead sub k (.str "") =
                  (.conf s, .dict []) := by
                rw [specMergeHead]
                simp only [hl]
              rw [hhead]
              constructor
              · rw [overwrite, hsplit]
                simp only [hpop]
                rw [overwriteMerge, initFold_id hwfs]
                simp only [if_pos rfl]
                rw [finishSet]
                simp only [hset]
                simp
              · rw [wfValue]
                exact hwfs
            | .null =>
              have hwrapM : wrapValue Value.null = .ok Value.null :=
                wrapValue_scalar rfl
              have hset := setSegs_single_fresh hk herase hwrapM
              have hhead : specMergeHead sub k Value.null =
                  (Value.null, .conf s) := by
                rw [specMergeHead]
                simp only [hl]
              rw [hhead]
              constructor
              · rw [overwrite, hsplit]
                simp only [hpop]
                rw [overwriteMerge, initFold_id hwfs]
                rw [finishSet]
                simp only [hset]
              · rw [wfValue]
            | .int n0 =>
              have hwrapM : wrapValue (Value.int n0) = .ok (Value.int n0) :=
                wrapValue_scalar rfl
              have hset := setSegs_single_fresh hk herase hwrapM
              have hhead : specMergeHead sub k (Value.int n0) =
                  (Value.int n0, .conf s) := by
                rw [specMergeHead]
                simp only [hl]
              rw [hhead]
              constructor
              · rw [overwrite, hsplit]
                simp only [hpop]
                rw [overwriteMerge, initFold_id hwfs]
                rw [finishSet]
                simp only [hset]
              · rw [wfValue]
      obtain ⟨hov, hwfhead⟩ := key
      have herase : lookup (eraseKey sub k) k = none :=
        wf_lookup_erase_self k hwf
      have hwf2 : wfContent
          (eraseKey sub k ++ [(k, (specMergeHead sub k v).1)]) = true :=
        wf_append_single (wf_erase k hwf) herase hk hwfhead
      have hk2 : lookup (eraseKey sub k ++ [(k, (specMergeHead sub k v).1)]) k
          = some (specMergeHead sub k v).1 := by
        rw [lookup_append_right _ _ _ herase, lookup]
        simp
      have hpres : ∀ j, j ≠ k →
          lookup (eraseKey sub k ++ [(k, (specMergeHead sub k v).1)]) j
            = lookup sub j := by
        intro j hj
        rw [lookup_append_single_ne _ _ hj, lookup_eraseKey_ne _ _ _ hj]
      have hmt2 : mergeOK
          (eraseKey sub k ++ [(k, (specMergeHead sub k v).1)]) t = true := by
        rw [mergeOK_congr t sub _ ?_]
        · exact hmt
        · intro j hj
          refine hpres j ?_
          intro he
          subst he
          rw [htk2] at hj
          simp at hj
      have hIH := ih (sizeOf t) hszt _ t le_rfl hwf2 hmt2
      refine ⟨?_, ?_, ?_⟩
      · rw [specMerge]
        exact hIH.1
      · intro j hj
        by_cases hjk : j = k
        · subst hjk
          have hfu := specMerge_fst_unmentioned t
            (eraseKey sub j ++ [(j, (specMergeHead sub j v).1)]) j htk2
          rw [specMerge]
          simp only [hfu, hk2, Option.isSome_some]
        · have h2 : ¬ k = j := fun hh => hjk hh.symm
          have hj2 : (lookup t j).isSome = true := by
            rw [lookup] at hj
            rw [if_neg h2] at hj
            exact hj
          have h3 := hIH.2.1 j hj2
          rw [specMerge]
          exact h3
      · intro olds holds
        have holdk : lookup olds k = none := by
          refine holds k ?_
          rw [lookup]
          simp
        have holds2 : ∀ j, (lookup t j).isSome = true →
            lookup (olds ++ [(k, (specMergeHead sub k v).2)]) j = none := by
          intro j hj
          have hjk : j ≠ k := by
            intro he
            subst he
            rw [htk2] at hj
            simp at hj
          rw [lookup_append_single_ne _ _ hjk]
          refine holds j ?_
          rw [lookup]
          have h2 : ¬ k = j := fun hh => hjk hh.symm
          rw [if_neg h2]
          exact hj
        rw [overwriteAllFold]
        simp only [hov]
        rw [setVal_absent _ _ _ holdk]
        rw [hIH.2.2 (olds ++ [(k, (specMergeHead sub k v).2)]) holds2]
        rw [specMerge]
        simp

/-- C1 (amended): for every well-formed configuration in which key `k`
resolves to a sub-configuration `sub`, and every string-keyed mapping `m`
that merges cleanly into it (`mergeOK`: valid unique identifier keys at
every level, a string value meeting a sub-configuration old value only when
empty, wrappable values elsewhere), `c.overwrite(k, m)` deep-merges rather
than replaces: the call returns the mapping of old values of the merged
keys in entry order (`None` for keys that were absent), the key is re-bound
to the recursively merged sub-configuration in which every key of `m` is
bound, every key of the old sub-configuration not mentioned in `m` keeps
its old value, and sibling keys of `k` are untouched. -/
theorem c1_overwrite_deep_merge (c : Content) (k : PKey) (segs : List String)
    (sub : Content) (m : List (String × Value))
    (hwf : wfContent c = true) (hk : k.toSegs = segs)
    (hget : getSegs c segs = .ok (.conf sub)) (hm : mergeOK sub m = true) :
    ∃ own fin c3 own2,
      resolveRead c segs = .ok (own, fin) ∧
      lookup own fin = some (.conf sub) ∧
      overwrite c k (.dict m) = (c3, .ok (.dict (specMerge sub m).2)) ∧
      resolveRead c3 segs = .ok (own2, fin) ∧
      lookup own2 fin = some (.conf (specMerge sub m).1) ∧
      (∀ j, j ≠ fin → lookup own2 j = lookup own j) ∧
      (∀ j, (lookup m j).isSome = true →
        (lookup (specMerge sub m).1 j).isSome = true) ∧
      (∀ j, lookup m j = none →
        lookup (specMerge sub m).1 j = lookup sub j) ∧
      ((specMerge sub m).2).map Prod.fst = m.map Prod.fst := by
  obtain ⟨own0, fin0, hr0, hl0⟩ := getSegs_ok_parts hget
  have hwfo : wfContent own0 = true := wf_resolveRead segs c own0 fin0 hwf hr0
  have hwfsub : wfContent sub = true := by
    have h0 := (wf_lookup hwfo hl0).2
    rw [wfValue] at h0
    exact h0
  have main := overwriteAllFold_spec (sizeOf m) sub m le_rfl hwfsub hm
  have hwrapM : wrapValue (.conf (specMerge sub m).1) =
      .ok (.conf (specMerge sub m).1) := by
    refine wrapValue_id ?_
    rw [wfValue]
    exact main.1
  obtain ⟨own, fin, c2, c3, own2, h1, h2, h3, h4, h5, h6, h7⟩ :=
    del_set_of_get segs c (.conf sub) (.conf (specMerge sub m).1)
      (.conf (specMerge sub m).1) hwf hget hwrapM
  have hpop : popDefault c segs = .ok (c2, some (.conf sub)) := by
    rw [popDefault]
    simp only [hget, h3]
  have hfold : overwriteAllFold sub [] m =
      ((specMerge sub m).1, .ok (specMerge sub m).2) := by
    have h0 := main.2.2 [] (fun j _ => rfl)
    simpa using h0
  refine ⟨own, fin, c3, own2, h1, h2, ?_, h5, h6, h7, main.2.1,
    specMerge_fst_unmentioned m sub, specMerge_snd_keys m sub⟩
  rw [overwrite, hk]
  simp only [hpop]
  rw [overwriteMerge, initFold_id hwfsub]
  simp only [hfold]
  rw [finishSet]
  simp only [h4]

/-- C1 witness: a flat merge — `c = Configuration(a=Configuration(x=1,
y=2))`, `c.overwrite("a", {"x": 9})` returns `{"x": 1}` and leaves `x = 9`,
`y = 2` under `"a"` — and a recursive deep merge — `c =
Configuration(a=Configuration(x=Configuration(y=1), z=2))`,
`c.overwrite("a", {"x": {"y": 9}})` returns `{"x": {"y": 1}}` and leaves
`x.y = 9`, `z = 2` under `"a"`. -/
theorem c1_witness :
    (∃ own fin c3 own2,
      resolveRead [("a", Value.conf [("x", Value.int 1), ("y", Value.int 2)])]
        ["a"] = .ok (own, fin) ∧
      lookup own fin = some (.conf [("x", Value.int 1), ("y", Value.int 2)]) ∧
      overwrite [("a", Value.conf [("x", Value.int 1), ("y", Value.int 2)])]
        (.str "a") (.dict [("x", Value.int 9)]) =
        (c3, .ok (.dict [("x", Value.int 1)])) ∧
      resolveRead c3 ["a"] = .ok (own2, fin) ∧
      lookup own2 fin =
        some (.conf [("y", Value.int 2), ("x", Value.int 9)])) ∧
    (∃ own fin c3 own2,
      resolveRead [("a", Value.conf
          [("x", Value.conf [("y", Value.int 1)]), ("z", Value.int 2)])]
        ["a"] = .ok (own, fin) ∧
      overwrite [("a", Value.conf
          [("x", Value.conf [("y", Value.int 1)]), ("z", Value.int 2)])]
        (.str "a") (.dict [("x", Value.dict [("y", Value.int 9)])]) =
        (c3, .ok (.dict [("x", Value.dict [("y", Value.int 1)])])) ∧
      resolveRead c3 ["a"] = .ok (own2, fin) ∧
      lookup own2 fin = some (.conf
        [("z", Value.int 2), ("x", Value.conf [("y", Value.int 9)])])) := by
  constructor
  · obtain ⟨own, fin, c3, own2, h1, h2, h3, h4, h5, _, _, _, _⟩ :=
      c1_overwrite_deep_merge
        [("a", Value.conf [("x", Value.int 1), ("y", Value.int 2)])]
        (.str "a") ["a"] [("x", Value.int 1), ("y", Value.int 2)]
        [("x", Value.int 9)]
        (by simp +decide [wfContent, wfValue, lookup])
        (by decide)
        (by rw [getSegs_single]; simp [lookup])
        (by simp +decide [mergeOK, goodEntriesV, lookup])
    have e1 : specMerge [("x", Value.int 1), ("y", Value.int 2)]
        [("x", Value.int 9)] =
        ([("y", Value.int 2), ("x", Value.int 9)], [("x", Value.int 1)]) := by
      simp +decide [specMerge, specMergeHead, lookup, eraseKey, deepWrapVal]
    simp only [e1] at h3 h5
    exact ⟨own, fin, c3, own2, h1, h2, h3, h4, h5⟩
  · obtain ⟨own, fin, c3, own2, h1, _, h3, h4, h5, _, _, _, _⟩ :=
      c1_overwrite_deep_merge
        [("a", Value.conf
          [("x", Value.conf [("y", Value.int 1)]), ("z", Value.int 2)])]
        (.str "a") ["a"]
        [("x", Value.conf [("y", Value.int 1)]), ("z", Value.int 2)]
        [("x", Value.dict [("y", Value.int 9)])]
        (by simp +decide [wfContent, wfValue, lookup])
        (by decide)
        (by rw [getSegs_single]; simp [lookup])
        (by simp +decide [mergeOK, goodEntriesV, lookup])
    have e2 : specMerge
        [("x", Value.conf [("y", Value.int 1)]), ("z", Value.int 2)]
        [("x", Value.dict [("y", Value.int 9)])] =
        ([("z", Value.int 2), ("x", Value.conf [("y", Value.int 9)])],
         [("x", Value.dict [("y", Value.int 1)])]) := by
      simp +decide [specMerge, specMergeHead, lookup, eraseKey, deepWrapVal]
    simp only [e2] at h3 h5
    exact ⟨own, fin, c3, own2, h1, h3, h4, h5⟩

/-- C1 counterexample: the claim quantifies over "every string-keyed mapping
m"; with `c = Configuration(a=Configuration(x=Configuration()))` and
`m = {"x": "s"}`, `c.overwrite("a", m)` does not deep-merge — the inner
`overwrite("x", "s")` pops the sub-configuration at `x` and then iterates the
string `"s"`, raising `ValueError: not enough values to unpack` (and the key
`"a"` is lost). -/
theorem c1_counterexample :
    overwrite [("a", .conf [("x", .conf [])])] (.str "a")
        (.dict [("x", .str "s")]) =
      ([], .error (.val "not enough values to unpack")) := by
  simp +decide [overwrite, PKey.toSegs, splitDot, splitDotAux, popDefault,
    getSegs, resolveRead, lookup, delSegs, eraseKey, overwriteMerge,
    overwriteAllFold, initFold, setSegs, validateKey, wrapValue, setVal,
    finishSet]

/-! ### Key-modifier lemmas (towards C8) -/

/-- `compMods ps` is the per-key effect of running the passes `ps` in order. -/
def compMods (ps : List (String × String)) (k : String) : String :=
  ps.foldl (fun k2 sr => pyReplace k2 sr.1 sr.2) k

/-- `passMods ps` runs one `__replace_in_keys` pass per modifier in order. -/
def passMods (ps : List (String × String)) (t : Content) : Content :=
  ps.foldl (fun cfg sr => replPassList sr.1 sr.2 cfg) t

theorem compMods_cons (p : String × String) (rest : List (String × String)) :
    compMods (p :: rest) = fun k => compMods rest (pyReplace k p.1 p.2) :=
  funext fun _ => rfl

theorem insertDesc_perm (x : String × String) (l : List (String × String)) :
    (insertDesc x l).Perm (x :: l) := by
  induction l with
  | nil => simp [insertDesc]
  | cons y t ih =>
    rw [insertDesc]
    by_cases h : y.1.length ≤ x.1.length
    · simp [h]
    · simp only [h, if_false]
      exact (ih.cons y).trans (List.Perm.swap x y t)

theorem sortMods_perm (mods : List (String × String)) :
    (sortMods mods).Perm mods := by
  induction mods with
  | nil => simp [sortMods]
  | cons x t ih =>
    rw [sortMods, List.foldr_cons]
    exact (insertDesc_perm x _).trans (ih.cons x)

theorem mem_insertDesc {x z : String × String} {l : List (String × String)}
    (h : z ∈ insertDesc x l) : z = x ∨ z ∈ l := by
  have := (insertDesc_perm x l).mem_iff.mp h
  simpa using this

theorem insertDesc_sorted (x : String × String)
    (l : List (String × String))
    (h : List.Pairwise (fun a b : String × String =>
      b.1.length ≤ a.1.length) l) :
    List.Pairwise (fun a b : String × String => b.1.length ≤ a.1.length)
      (insertDesc x l) := by
  induction l with
  | nil => simp [insertDesc]
  | cons y t ih =>
    rw [List.pairwise_cons] at h
    rw [insertDesc]
    by_cases hc : y.1.length ≤ x.1.length
    · simp only [hc, if_true]
      rw [List.pairwise_cons]
      refine ⟨?_, by rw [List.pairwise_cons]; exact h⟩
      intro z hz
      rcases List.mem_cons.mp hz with hz2 | hz2
      · subst hz2
        exact hc
      · exact le_trans (h.1 z hz2) hc
    · simp only [hc, if_false]
      rw [List.pairwise_cons]
      refine ⟨?_, ih h.2⟩
      intro z hz
      rcases mem_insertDesc hz with hz2 | hz2
      · subst hz2
        omega
      · exact h.1 z hz2

theorem sortMods_sorted (mods : List (String × String)) :
    List.Pairwise (fun a b : String × String => b.1.length ≤ a.1.length)
      (sortMods mods) := by
  induction mods with
  | nil => simp [sortMods]
  | cons x t ih =>
    rw [sortMods, List.foldr_cons]
    exact insertDesc_sorted x _ ih

theorem lookup_isNone_keys_eq (l1 : Content) :
    ∀ (l2 : Content) (q : String), l1.map Prod.fst = l2.map Prod.fst →
      (lookup l1 q).isNone = (lookup l2 q).isNone := by
  induction l1 with
  | nil =>
    intro l2 q h
    cases l2 with
    | nil => rfl
    | cons hd t => simp at h
  | cons hd t ih =>
    intro l2 q h
    cases l2 with
    | nil => simp at h
    | cons hd2 t2 =>
      obtain ⟨k, v⟩ := hd
      obtain ⟨k2, v2⟩ := hd2
      simp only [List.map_cons, List.cons.injEq] at h
      by_cases hk : k = q
      · subst hk
        simp [lookup, h.1.symm]
      · rw [← h.1] at *
        simp only [lookup, hk, if_false]
        exact ih t2 q h.2

theorem keysNodup_keys_eq (l1 : Content) :
    ∀ (l2 : Content), l1.map Prod.fst = l2.map Prod.fst →
      keysNodup l1 = keysNodup l2 := by
  induction l1 with
  | nil =>
    intro l2 h
    cases l2 with
    | nil => rfl
    | cons hd t => simp at h
  | cons hd t ih =>
    intro l2 h
    cases l2 with
    | nil => simp at h
    | cons hd2 t2 =>
      obtain ⟨k, v⟩ := hd
      obtain ⟨k2, v2⟩ := hd2
      simp only [List.map_cons, List.cons.injEq] at h
      rw [keysNodup, keysNodup, ← h.1,
        lookup_isNone_keys_eq t t2 k h.2, ih t2 h.2]

theorem mapKeys_nil (f : String → String) : mapKeys f [] = [] := rfl

theorem mapKeys_cons (f : String → String) (k : String) (v : Value)
    (t : Content) : mapKeys f ((k, v) :: t) = (f k, v) :: mapKeys f t := rfl

theorem mapKeys_keys (f : String → String) (l : Content) :
    (mapKeys f l).map Prod.fst = l.map (fun kv => f kv.1) := by
  induction l with
  | nil => rfl
  | cons hd t ih =>
    obtain ⟨k, v⟩ := hd
    rw [mapKeys_cons, List.map_cons, List.map_cons, ih]

theorem mapKeys_comp_keys (f g : String → String) (l : Content) :
    (mapKeys g (mapKeys f l)).map Prod.fst =
      (mapKeys (fun k => g (f k)) l).map Prod.fst := by
  induction l with
  | nil => rfl
  | cons hd t ih =>
    obtain ⟨k, v⟩ := hd
    rw [mapKeys_cons, mapKeys_cons, mapKeys_cons, List.map_cons,
      List.map_cons, ih]

theorem lookup_mapKeys_none (g : String → String) (l : Content) (q : String)
    (h : lookup (mapKeys g l) (g q) = none) : lookup l q = none := by
  induction l with
  | nil => simp [lookup]
  | cons hd t ih =>
    obtain ⟨k0, v0⟩ := hd
    rw [mapKeys_cons] at h
    simp only [lookup] at h ⊢
    by_cases hk : k0 = q
    · subst hk
      simp at h
    · simp only [hk, if_false]
      by_cases hg : g k0 = g q
      · simp [hg] at h
      · simp only [hg, if_false] at h
        exact ih h

theorem keysNodup_comp (f g : String → String) (m : Content)
    (h : keysNodup (mapKeys (fun k => g (f k)) m) = true) :
    keysNodup (mapKeys f m) = true := by
  induction m with
  | nil => simp [mapKeys_nil, keysNodup]
  | cons hd t ih =>
    obtain ⟨k, v⟩ := hd
    rw [mapKeys_cons, keysNodup] at h ⊢
    simp only [Bool.and_eq_true, Option.isNone_iff_eq_none] at h ⊢
    constructor
    · have h2 : lookup (mapKeys g (mapKeys f t)) (g (f k)) = none := by
        have h3 := lookup_isNone_keys_eq (mapKeys (fun k => g (f k)) t)
          (mapKeys g (mapKeys f t)) (g (f k))
          (mapKeys_comp_keys f g t).symm
        rw [h.1] at h3
        simpa [Option.isNone_iff_eq_none] using h3.symm
      exact lookup_mapKeys_none g (mapKeys f t) (f k) h2
    · exact ih h.2

theorem dictOf_fold_nodup (l : Content) :
    ∀ (acc : Content), keysNodup l = true →
      (∀ kv ∈ l, lookup acc kv.1 = none) →
      l.foldl (fun acc kv => setVal acc kv.1 kv.2) acc = acc ++ l := by
  induction l with
  | nil =>
    intro acc _ _
    simp
  | cons hd t ih =>
    obtain ⟨k, v⟩ := hd
    intro acc hnodup hdisj
    rw [keysNodup] at hnodup
    simp only [Bool.and_eq_true, Option.isNone_iff_eq_none] at hnodup
    have hfree : lookup acc k = none := hdisj (k, v) (by simp)
    rw [List.foldl_cons]
    simp only [setVal_absent acc k v hfree]
    rw [ih (acc ++ [(k, v)]) hnodup.2 ?_]
    · simp
    · intro kv hkv
      have hne : kv.1 ≠ k := by
        intro hh
        have := lookup_isSome_of_mem hkv
        rw [hh, hnodup.1] at this
        simp at this
      rw [lookup_append_single_ne _ _ hne]
      exact hdisj kv (by simp [hkv])

theorem dictOf_nodup {l : Content} (h : keysNodup l = true) :
    dictOf l = l := by
  rw [dictOf, dictOf_fold_nodup l [] h (by intro kv _; rw [lookup])]
  simp

theorem mapTreeList_keys (f : String → String) (m : Content) :
    (mapTreeList f m).map Prod.fst = (mapKeys f m).map Prod.fst := by
  induction m with
  | nil => rw [mapTreeList, mapKeys_nil]
  | cons hd t ih =>
    obtain ⟨k, v⟩ := hd
    rw [mapTreeList, mapKeys_cons, List.map_cons, List.map_cons, ih]

theorem mapKeys_mapTreeList_keys (f g : String → String) (m : Content) :
    (mapKeys g (mapTreeList f m)).map Prod.fst =
      (mapKeys (fun k => g (f k)) m).map Prod.fst := by
  induction m with
  | nil => rw [mapTreeList, mapKeys_nil, mapKeys_nil]
  | cons hd t ih =>
    obtain ⟨k, v⟩ := hd
    rw [mapTreeList, mapKeys_cons, mapKeys_cons, List.map_cons,
      List.map_cons, ih]

/-- Tree maps compose pointwise on keys. -/
theorem mapTree_comp (f g : String → String) :
    ∀ n : Nat,
      (∀ v : Value, sizeOf v ≤ n →
        mapTreeVal g (mapTreeVal f v) = mapTreeVal (fun k => g (f k)) v) ∧
      (∀ l : List (String × Value), sizeOf l ≤ n →
        mapTreeList g (mapTreeList f l) = mapTreeList (fun k => g (f k)) l) := by
  intro n
  induction n using Nat.strong_induction_on with
  | _ n ih =>
    constructor
    · intro v hv
      match v with
      | .null => rw [mapTreeVal, mapTreeVal, mapTreeVal]
      | .int nn => rw [mapTreeVal, mapTreeVal, mapTreeVal]
      | .str t => rw [mapTreeVal, mapTreeVal, mapTreeVal]
      | .dict m =>
        have hm : sizeOf m < n := by
          have : sizeOf (Value.dict m) = 1 + sizeOf m := by simp
          omega
        rw [mapTreeVal, mapTreeVal, mapTreeVal,
          (ih (sizeOf m) hm).2 m le_rfl]
      | .conf m =>
        have hm : sizeOf m < n := by
          have : sizeOf (Value.conf m) = 1 + sizeOf m := by simp
          omega
        rw [mapTreeVal, mapTreeVal, mapTreeVal,
          (ih (sizeOf m) hm).2 m le_rfl]
    · intro l hl
      match l with
      | [] => rw [mapTreeList, mapTreeList, mapTreeList]
      | (k, v) :: t =>
        have hsz : sizeOf ((k, v) :: t) =
            1 + (1 + sizeOf k + sizeOf v) + sizeOf t := by simp
        have hv : sizeOf v < n := by omega
        have ht : sizeOf t < n := by omega
        rw [mapTreeList, mapTreeList, mapTreeList,
          (ih (sizeOf v) hv).1 v le_rfl, (ih (sizeOf t) ht).2 t le_rfl]

/-- Good trees are plain dict trees, on which the identity tree map is the
identity. -/
theorem mapTree_id_of_good (f : String → String) :
    ∀ n : Nat,
      (∀ v, sizeOf v ≤ n → goodVal f v = true →
        mapTreeVal (fun k => k) v = v) ∧
      (∀ l, sizeOf l ≤ n → goodList f l = true →
        mapTreeList (fun k => k) l = l) := by
  intro n
  induction n using Nat.strong_induction_on with
  | _ n ih =>
    constructor
    · intro v hv hgood
      match v with
      | .null => rw [mapTreeVal]
      | .int nn => rw [mapTreeVal]
      | .str t => rw [mapTreeVal]
      | .dict m =>
        have hm : sizeOf m < n := by
          have : sizeOf (Value.dict m) = 1 + sizeOf m := by simp
          omega
        rw [goodVal] at hgood
        simp only [Bool.and_eq_true] at hgood
        rw [mapTreeVal, (ih (sizeOf m) hm).2 m le_rfl hgood.2]
      | .conf m => rw [goodVal] at hgood; exact absurd hgood (by simp)
    · intro l hl hgood
      match l with
      | [] => rw [mapTreeList]
      | (k, v) :: t =>
        have hsz : sizeOf ((k, v) :: t) =
            1 + (1 + sizeOf k + sizeOf v) + sizeOf t := by simp
        have hv : sizeOf v < n := by omega
        have ht : sizeOf t < n := by omega
        rw [goodList] at hgood
        simp only [Bool.and_eq_true] at hgood
        rw [mapTreeList, (ih (sizeOf v) hv).1 v le_rfl hgood.1,
          (ih (sizeOf t) ht).2 t le_rfl hgood.2]

/-- Goodness under a composite renaming gives goodness under its first
stage. -/
theorem good_comp_first (f g : String → String) :
    ∀ n : Nat,
      (∀ v, sizeOf v ≤ n → goodVal (fun k => g (f k)) v = true →
        goodVal f v = true) ∧
      (∀ l, sizeOf l ≤ n → goodList (fun k => g (f k)) l = true →
        goodList f l = true) := by
  intro n
  induction n using Nat.strong_induction_on with
  | _ n ih =>
    constructor
    · intro v hv hgood
      match v with
      | .null => rw [goodVal]
      | .int nn => rw [goodVal]
      | .str t => rw [goodVal]
      | .dict m =>
        have hm : sizeOf m < n := by
          have : sizeOf (Value.dict m) = 1 + sizeOf m := by simp
          omega
        rw [goodVal] at hgood ⊢
        simp only [Bool.and_eq_true] at hgood ⊢
        exact ⟨keysNodup_comp f g m hgood.1,
          (ih (sizeOf m) hm).2 m le_rfl hgood.2⟩
      | .conf m => rw [goodVal] at hgood; exact absurd hgood (by simp)
    · intro l hl hgood
      match l with
      | [] => rw [goodList]
      | (k, v) :: t =>
        have hsz : sizeOf ((k, v) :: t) =
            1 + (1 + sizeOf k + sizeOf v) + sizeOf t := by simp
        have hv : sizeOf v < n := by omega
        have ht : sizeOf t < n := by omega
        rw [goodList] at hgood ⊢
        simp only [Bool.and_eq_true] at hgood ⊢
        exact ⟨(ih (sizeOf v) hv).1 v le_rfl hgood.1,
          (ih (sizeOf t) ht).2 t le_rfl hgood.2⟩

/-- Goodness under a composite renaming transports through mapping the first
stage over the tree. -/
theorem good_mapTree (f g : String → String) :
    ∀ n : Nat,
      (∀ v, sizeOf v ≤ n → goodVal (fun k => g (f k)) v = true →
        goodVal g (mapTreeVal f v) = true) ∧
      (∀ l, sizeOf l ≤ n → goodList (fun k => g (f k)) l = true →
        goodList g (mapTreeList f l) = true) := by
  intro n
  induction n using Nat.strong_induction_on with
  | _ n ih =>
    constructor
    · intro v hv hgood
      match v with
      | .null => rw [mapTreeVal, goodVal]
      | .int nn => rw [mapTreeVal, goodVal]
      | .str t => rw [mapTreeVal, goodVal]
      | .dict m =>
        have hm : sizeOf m < n := by
          have : sizeOf (Value.dict m) = 1 + sizeOf m := by simp
          omega
        rw [goodVal] at hgood
        simp only [Bool.and_eq_true] at hgood
        rw [mapTreeVal, goodVal]
        simp only [Bool.and_eq_true]
        constructor
        · rw [keysNodup_keys_eq (mapKeys g (mapTreeList f m))
            (mapKeys (fun k => g (f k)) m) (mapKeys_mapTreeList_keys f g m)]
          exact hgood.1
        · exact (ih (sizeOf m) hm).2 m le_rfl hgood.2
      | .conf m => rw [goodVal] at hgood; exact absurd hgood (by simp)
    · intro l hl hgood
      match l with
      | [] => rw [mapTreeList, goodList]
      | (k, v) :: t =>
        have hsz : sizeOf ((k, v) :: t) =
            1 + (1 + sizeOf k + sizeOf v) + sizeOf t := by simp
        have hv : sizeOf v < n := by omega
        have ht : sizeOf t < n := by omega
        rw [goodList] at hgood
        simp only [Bool.and_eq_true] at hgood
        rw [mapTreeList, goodList]
        simp only [Bool.and_eq_true]
        exact ⟨(ih (sizeOf v) hv).1 v le_rfl hgood.1,
          (ih (sizeOf t) ht).2 t le_rfl hgood.2⟩

/-- One `__replace_in_keys` pass equals the specification-side tree map when
no two keys of any level collapse onto the same replaced key. -/
theorem replPass_eq_mapTree (s r : String) :
    ∀ n : Nat,
      (∀ v, sizeOf v ≤ n →
        goodVal (fun k => pyReplace k s r) v = true →
        replPassVal s r v = mapTreeVal (fun k => pyReplace k s r) v) ∧
      (∀ l, sizeOf l ≤ n →
        goodList (fun k => pyReplace k s r) l = true →
        replPassEntries s r l =
          mapTreeList (fun k => pyReplace k s r) l) := by
  intro n
  induction n using Nat.strong_induction_on with
  | _ n ih =>
    constructor
    · intro v hv hgood
      match v with
      | .null => rw [replPassVal, mapTreeVal]
      | .int nn => rw [replPassVal, mapTreeVal]
      | .str t => rw [replPassVal, mapTreeVal]
      | .dict m =>
        have hm : sizeOf m < n := by
          have : sizeOf (Value.dict m) = 1 + sizeOf m := by simp
          omega
        rw [goodVal] at hgood
        simp only [Bool.and_eq_true] at hgood
        rw [replPassVal, mapTreeVal, (ih (sizeOf m) hm).2 m le_rfl hgood.2]
        rw [dictOf_nodup ?_]
        rw [keysNodup_keys_eq (mapTreeList (fun k => pyReplace k s r) m)
          (mapKeys (fun k => pyReplace k s r) m) (mapTreeList_keys _ m)]
        exact hgood.1
      | .conf m => rw [goodVal] at hgood; exact absurd hgood (by simp)
    · intro l hl hgood
      match l with
      | [] => rw [replPassEntries, mapTreeList]
      | (k, v) :: t =>
        have hsz : sizeOf ((k, v) :: t) =
            1 + (1 + sizeOf k + sizeOf v) + sizeOf t := by simp
        have hv : sizeOf v < n := by omega
        have ht : sizeOf t < n := by omega
        rw [goodList] at hgood
        simp only [Bool.and_eq_true] at hgood
        rw [replPassEntries, mapTreeList,
          (ih (sizeOf v) hv).1 v le_rfl hgood.1,
          (ih (sizeOf t) ht).2 t le_rfl hgood.2]

/-- Top-level form of the single-pass lemma. -/
theorem replPassList_eq (s r : String) (t : Content)
    (hnodup : keysNodup (mapKeys (fun k => pyReplace k s r) t) = true)
    (hgood : goodList (fun k => pyReplace k s r) t = true) :
    replPassList s r t = mapTreeList (fun k => pyReplace k s r) t := by
  rw [replPassList, (replPass_eq_mapTree s r (sizeOf t)).2 t le_rfl hgood]
  apply dictOf_nodup
  rw [keysNodup_keys_eq (mapTreeList (fun k => pyReplace k s r) t)
    (mapKeys (fun k => pyReplace k s r) t) (mapTreeList_keys _ t)]
  exact hnodup

theorem compMods_nil : compMods [] = fun k => k :=
  funext fun _ => rfl

/-- Running all passes in order equals the composite per-key tree map, as
long as the composite keeps all keys at every level distinct. -/
theorem passMods_eq_mapTree (ps : List (String × String)) :
    ∀ t : Content, goodTop (compMods ps) t = true →
      passMods ps t = mapTreeList (compMods ps) t := by
  induction ps with
  | nil =>
    intro t hgood
    rw [goodTop] at hgood
    simp only [Bool.and_eq_true] at hgood
    have hid := (mapTree_id_of_good (compMods []) (sizeOf t)).2 t le_rfl
      (by rw [compMods_nil] at hgood ⊢; exact hgood.2)
    rw [compMods_nil, passMods]
    simp only [List.foldl_nil]
    exact hid.symm
  | cons p rest ih =>
    intro t hgood
    rw [compMods_cons, goodTop] at hgood
    simp only [Bool.and_eq_true] at hgood
    have hnod1 : keysNodup (mapKeys (fun k => pyReplace k p.1 p.2) t)
        = true :=
      keysNodup_comp (fun k => pyReplace k p.1 p.2) (compMods rest) t hgood.1
    have hgood1 : goodList (fun k => pyReplace k p.1 p.2) t = true :=
      (good_comp_first (fun k => pyReplace k p.1 p.2) (compMods rest)
        (sizeOf t)).2 t le_rfl hgood.2
    have hstep : replPassList p.1 p.2 t =
        mapTreeList (fun k => pyReplace k p.1 p.2) t :=
      replPassList_eq p.1 p.2 t hnod1 hgood1
    have hgood2 : goodTop (compMods rest)
        (mapTreeList (fun k => pyReplace k p.1 p.2) t) = true := by
      rw [goodTop]
      simp only [Bool.and_eq_true]
      constructor
      · rw [keysNodup_keys_eq
          (mapKeys (compMods rest)
            (mapTreeList (fun k => pyReplace k p.1 p.2) t))
          (mapKeys (fun k => compMods rest (pyReplace k p.1 p.2)) t)
          (mapKeys_mapTreeList_keys (fun k => pyReplace k p.1 p.2)
            (compMods rest) t)]
        exact hgood.1
      · exact (good_mapTree (fun k => pyReplace k p.1 p.2) (compMods rest)
          (sizeOf t)).2 t le_rfl hgood.2
    have hfold : passMods (p :: rest) t =
        passMods rest (replPassList p.1 p.2 t) := rfl
    rw [hfold, hstep, ih _ hgood2,
      (mapTree_comp (fun k => pyReplace k p.1 p.2) (compMods rest)
        (sizeOf t)).2 t le_rfl, compMods_cons]

/-- C8: `_replace_in_keys` (used by both `load` and `save`) applies each
literal substring replacement to every key at every nesting level of the
mapping, replacement sources in order of decreasing length: the result is
the specification-side tree map of the composite per-key replacement
`keyX mods` (provided no two keys of a level collapse onto the same replaced
key, so that the rebuilt dicts lose no entries), and the pass order
`sortMods mods` is length-sorted (non-increasing) and a permutation of the
modifier list, which makes overlapping replacement rules deterministic. -/
theorem c8_key_modifiers (mods : List (String × String)) (t : Content)
    (hgood : goodTop (keyX mods) t = true) :
    replaceInKeys t mods = mapTreeList (keyX mods) t ∧
    List.Pairwise (fun a b : String × String => b.1.length ≤ a.1.length)
      (sortMods mods) ∧
    (sortMods mods).Perm mods := by
  refine ⟨?_, sortMods_sorted mods, sortMods_perm mods⟩
  exact passMods_eq_mapTree (sortMods mods) t hgood

/-- C8 witness: `{"a-b": {"c-d": 1}}` with the modifier `"-" → "_"` becomes
`{"a_b": {"c_d": 1}}` — the replacement is applied at both nesting levels. -/
theorem c8_witness :
    goodTop (keyX [("-", "_")])
        [("a-b", Value.dict [("c-d", Value.int 1)])] = true ∧
    replaceInKeys [("a-b", Value.dict [("c-d", Value.int 1)])] [("-", "_")] =
      [("a_b", Value.dict [("c_d", Value.int 1)])] ∧
    List.Pairwise (fun a b : String × String => b.1.length ≤ a.1.length)
      (sortMods [("-", "_")]) ∧
    (sortMods [("-", "_")]).Perm [("-", "_")] := by
  have hgood : goodTop (keyX [("-", "_")])
      [("a-b", Value.dict [("c-d", Value.int 1)])] = true := by
    simp +decide [goodTop, goodVal, goodList, keysNodup, mapKeys, keyX,
      sortMods, insertDesc, pyReplace, pyReplaceL, List.isPrefixOf, lookup]
  have h := c8_key_modifiers [("-", "_")]
    [("a-b", Value.dict [("c-d", Value.int 1)])] hgood
  refine ⟨hgood, ?_, h.2.1, h.2.2⟩
  rw [h.1]
  simp +decide [mapTreeVal, mapTreeList, keyX, sortMods, insertDesc,
    pyReplace, pyReplaceL, List.isPrefixOf]

end Upsilonconf
